import Mathlib

/-!
Shallow embedding of the mini-redis storage engine (src/hash_table.c,
src/mini_redis.h) and command interpreter (src/engine/server.c).

C strings are modelled as their byte content, `List Nat` (a C string is a
NUL-terminated byte sequence; the list holds the bytes before the NUL, so
`strlen` is `List.length`, `strcmp`-equality is list equality and `strcpy`
duplication is the value itself).  `size_t` arithmetic is modelled on `Nat`;
the program's counters never overflow 2^64 in any reachable state, and the
two subtractions on `memory_used` (update and delete paths) are performed
by the C code only when the subtrahend is part of the current sum, so
truncated `Nat` subtraction agrees with `size_t` wrap-around there.
Pointer-level null checks on the `ht`/`key`/`value` arguments have no
counterpart: the embedding passes values, not pointers.  `malloc`/`calloc`
failure for the two allocations that the claims discuss (the bucket array
in `ht_resize`, the entry/value bytes in `ht_set`) is modelled by an
explicit allocation oracle `Alloc`; the remaining allocations (the table
itself in `ht_create`, reply buffers in `process_command`) are taken to
succeed.  `sizeof` values are the LP64 x86-64 ones the reference binary
uses: `sizeof(HashEntry) = 40` (two pointers, two `size_t`, one pointer),
`sizeof(HashTable) = 32`, `sizeof(HashEntry *) = 8`.
-/

namespace MiniRedis

set_option maxRecDepth 10000

/-- Byte strings: the contents of a NUL-terminated C string. -/
abbrev Bytes := List Nat

/-- Bytes of a Lean string literal (all protocol text is ASCII). -/
def bytes (s : String) : Bytes := s.data.map Char.toNat

/-- mini_redis.h: `#define INITIAL_BUCKETS 64`. -/
def INITIAL_BUCKETS : Nat := 64

/-- mini_redis.h: `#define MAX_KEY_SIZE 256`. -/
def MAX_KEY_SIZE : Nat := 256

/-- mini_redis.h: `#define MAX_VALUE_SIZE 4096`. -/
def MAX_VALUE_SIZE : Nat := 4096

/-- `sizeof(HashEntry)` on the LP64 reference platform. -/
def sizeof_HashEntry : Nat := 40

/-- `sizeof(HashTable)` on the LP64 reference platform. -/
def sizeof_HashTable : Nat := 32

/-- `sizeof(HashEntry *)` on the LP64 reference platform. -/
def sizeof_ptr : Nat := 8

/-- hash_table.c `hash_djb2`: `hash = 5381; hash = ((hash << 5) + hash) + c`
over the key bytes, in `uint64_t` arithmetic.  A single `% 2^64` per step
equals the C sequence of wrapping operations because the pre-reduction
value is below `2^64 * 33 + 256`. -/
def hash_djb2 (s : Bytes) : Nat :=
  s.foldl (fun h c => ((h <<< 5) + h + c) % 2 ^ 64) 5381

/-- mini_redis.h `HashEntry`.  The `key_len`/`value_len` fields always hold
`strlen` of the corresponding buffer (entry_create and the ht_set update
path keep them in lockstep), so they are represented by the list lengths;
the `next` pointer is represented by the position in the bucket's chain
list. -/
structure HashEntry where
  key : Bytes
  value : Bytes
deriving DecidableEq

/-- mini_redis.h `HashTable`.  `buckets` lists the chains head-first. -/
structure HashTable where
  buckets : List (List HashEntry)
  num_buckets : Nat
  num_entries : Nat
  memory_used : Nat
deriving DecidableEq

/-- hash_table.c `entry_memory`:
`sizeof(HashEntry) + key_len + 1 + value_len + 1`. -/
def entry_memory (e : HashEntry) : Nat :=
  sizeof_HashEntry + e.key.length + 1 + e.value.length + 1

/-- Bucket index: `hash_djb2(key) % num_buckets`. -/
def bucketIdx (nb : Nat) (k : Bytes) : Nat := hash_djb2 k % nb

/-- The chain hanging off bucket `i` (`ht->buckets[i]`, head first; empty
when `i` is out of range). -/
def bucketAt (ht : HashTable) (i : Nat) : List HashEntry :=
  ht.buckets.getD i []

/-- hash_table.c `ht_create`: `initial_buckets` if positive else
`INITIAL_BUCKETS`; empty buckets; `memory_used` starts at
`sizeof(HashTable)` plus `num_buckets * sizeof(HashEntry *)`. -/
def ht_create (initial_buckets : Nat) : HashTable :=
  let nb := if initial_buckets > 0 then initial_buckets else INITIAL_BUCKETS
  { buckets := List.replicate nb []
    num_buckets := nb
    num_entries := 0
    memory_used := sizeof_HashTable + nb * sizeof_ptr }

/-- One step of the `ht_resize` rehash loop: unlink an entry and push it on
the head of its new bucket (`new_index = hash_djb2(key) % new_num_buckets`). -/
def moveEntry (nb : Nat) (acc : List (List HashEntry)) (e : HashEntry) :
    List (List HashEntry) :=
  acc.set (bucketIdx nb e.key) (e :: acc.getD (bucketIdx nb e.key) [])

/-- The `ht_resize` double loop: buckets are visited in index order and each
chain head-to-tail, which is exactly a left fold of `moveEntry` over the
joined chain list. -/
def rehash (nb : Nat) (es : List HashEntry) (acc : List (List HashEntry)) :
    List (List HashEntry) :=
  es.foldl (moveEntry nb) acc

/-- hash_table.c `ht_resize`, success path (the new bucket array was
allocated): double the bucket count, rehash every entry into a fresh empty
array, swap the memory accounting of the old bucket array for the new one.
The allocation-failure path returns `-1` before mutating anything and is
modelled at the call site (`ht_set`) by leaving the table untouched. -/
def ht_resize (ht : HashTable) : HashTable :=
  let nb := ht.num_buckets * 2
  { buckets := rehash nb ht.buckets.flatten (List.replicate nb [])
    num_buckets := nb
    num_entries := ht.num_entries
    memory_used := ht.memory_used - ht.num_buckets * sizeof_ptr + nb * sizeof_ptr }

/-- Allocation oracle: whether the `calloc` inside `ht_resize` succeeds, and
whether the `malloc`s of `ht_set`'s own path (the new value buffer on
update, `entry_create` on insert) succeed. -/
structure Alloc where
  resizeOk : Bool
  entryOk : Bool
deriving DecidableEq

/-- The oracle for runs in which every allocation succeeds. -/
def allocAll : Alloc := ⟨true, true⟩

/-- Replace the value of the first chain entry whose key matches, in place
(the ht_set update path: key and chain position unchanged). -/
def replaceValue (k v : Bytes) : List HashEntry → List HashEntry
  | [] => []
  | e :: rest =>
    if e.key = k then { e with value := v } :: rest
    else e :: replaceValue k v rest

/-- Unlink the first chain entry whose key matches (the ht_delete path). -/
def removeKey (k : Bytes) : List HashEntry → List HashEntry
  | [] => []
  | e :: rest => if e.key = k then rest else e :: removeKey k rest

/-- hash_table.c `ht_set`, lines 180-221: the part after the size guard and
the resize attempt.  Scan the chain at `hash % num_buckets` for the key;
if found, duplicate the new value (failure: `-1`, nothing changed), free
the old one and fix the accounting by the old/new `entry_memory` delta; if
absent, create an entry (failure: `-1`, nothing changed), link it at the
chain head, bump `num_entries` and add its `entry_memory`. -/
def ht_set_inner (entryOk : Bool) (ht : HashTable) (k v : Bytes) :
    Int × HashTable :=
  let idx := bucketIdx ht.num_buckets k
  let chain := bucketAt ht idx
  match chain.find? (fun e => e.key == k) with
  | some e =>
    if entryOk then
      (0, { ht with
              buckets := ht.buckets.set idx (replaceValue k v chain)
              memory_used := ht.memory_used - entry_memory e
                + entry_memory { e with value := v } })
    else (-1, ht)
  | none =>
    if entryOk then
      (0, { ht with
              buckets := ht.buckets.set idx (⟨k, v⟩ :: chain)
              num_entries := ht.num_entries + 1
              memory_used := ht.memory_used + entry_memory ⟨k, v⟩ })
    else (-1, ht)

/-- hash_table.c `ht_set`.  Reject oversized keys/values with `-1` and no
mutation.  Then compare the load factor `num_entries / num_buckets` (a
`float` division; for every reachable table the comparison against 0.75 is
exact and equals `4 * num_entries > 3 * num_buckets`, since `num_buckets`
is a power of two and the counts are far below 2^24) strictly against
0.75, resizing on success of the oracle and continuing into the unresized
table on failure; finally run the insert-or-update pass. -/
def ht_set (a : Alloc) (ht : HashTable) (k v : Bytes) : Int × HashTable :=
  if k.length > MAX_KEY_SIZE ∨ v.length > MAX_VALUE_SIZE then (-1, ht)
  else
    let ht1 := if 3 * ht.num_buckets < 4 * ht.num_entries then
                 (if a.resizeOk then ht_resize ht else ht)
               else ht
    ht_set_inner a.entryOk ht1 k v

/-- hash_table.c `ht_get`: scan the chain at `hash % num_buckets`, return
the first entry's value on a key match, else NULL (`none`). -/
def ht_get (ht : HashTable) (k : Bytes) : Option Bytes :=
  ((bucketAt ht (bucketIdx ht.num_buckets k)).find?
    (fun e => e.key == k)).map (·.value)

/-- hash_table.c `ht_delete`: scan the chain at `hash % num_buckets`; on a
match unlink the node, subtract its `entry_memory`, decrement
`num_entries` and return 0; else return `-1` with nothing changed. -/
def ht_delete (ht : HashTable) (k : Bytes) : Int × HashTable :=
  let idx := bucketIdx ht.num_buckets k
  let chain := bucketAt ht idx
  match chain.find? (fun e => e.key == k) with
  | some e =>
    (0, { ht with
            buckets := ht.buckets.set idx (removeKey k chain)
            memory_used := ht.memory_used - entry_memory e
            num_entries := ht.num_entries - 1 })
  | none => (-1, ht)

/-- hash_table.c `ht_stats`: report `num_entries` and `memory_used`. -/
def ht_stats (ht : HashTable) : Nat × Nat := (ht.num_entries, ht.memory_used)

/-! ## The command interpreter (src/engine/server.c) -/

/-- C-locale `isspace` on a byte: space or 0x09-0x0D. -/
def isspaceByte (b : Nat) : Bool := b == 32 || (9 ≤ b && b ≤ 13)

/-- A `strtok_r(_, " \t", _)` delimiter byte. -/
def isTokSep (b : Nat) : Bool := b == 32 || b == 9

/-- `toupper` on an ASCII byte. -/
def toupperByte (b : Nat) : Nat := if 97 ≤ b ∧ b ≤ 122 then b - 32 else b

/-- server.c `trim_whitespace`: drop leading `isspace` bytes, then trailing
ones. -/
def trim_whitespace (l : Bytes) : Bytes :=
  ((l.dropWhile isspaceByte).reverse.dropWhile isspaceByte).reverse

/-- `strtok_r` splitting on runs of space/tab: accumulate the current token
(reversed) and emit it at each delimiter run or at the end. -/
def tokenizeAux : Bytes → Bytes → List Bytes
  | [], cur => if cur.isEmpty then [] else [cur.reverse]
  | b :: rest, cur =>
    if isTokSep b then
      if cur.isEmpty then tokenizeAux rest []
      else cur.reverse :: tokenizeAux rest []
    else tokenizeAux rest (b :: cur)

/-- server.c `parse_command`: the first at most 10 tokens
(`char *tokens[10]`; the collection loop stops at `max_tokens`). -/
def parse_command (l : Bytes) : List Bytes := (tokenizeAux l []).take 10

/-- `while (*p && !isspace(*p)) p++;` -/
def skipTok (l : Bytes) : Bytes := l.dropWhile (fun b => !isspaceByte b)

/-- `while (*p && isspace(*p)) p++;` -/
def skipWs (l : Bytes) : Bytes := l.dropWhile isspaceByte

/-- The SET value re-scan of server.c lines 173-177: starting from the
trimmed original line, skip the command token, a whitespace run, the key
token and another whitespace run; what remains is the value. -/
def setValueStart (trimmed : Bytes) : Bytes :=
  skipWs (skipTok (skipWs (skipTok trimmed)))

/-- Decimal digits of a number, as `%zu` renders it. -/
def natBytes (n : Nat) : Bytes := (Nat.toDigits 10 n).map Char.toNat

/-- The STATS reply: `snprintf "{\"keys\": %zu, \"memory_bytes\": %zu}"`. -/
def statsJson (ht : HashTable) : Bytes :=
  bytes "\x7b\"keys\": " ++ natBytes ht.num_entries
    ++ bytes ", \"memory_bytes\": " ++ natBytes ht.memory_used ++ bytes "\x7d"

/-- The KEYS reply: a JSON array of the quoted keys, buckets in index order
and each chain head-to-tail (the reply-buffer `realloc` is taken to
succeed). -/
def keysJson (ht : HashTable) : Bytes :=
  91 :: (List.intercalate [44]
    (ht.buckets.flatten.map (fun e => 34 :: e.key ++ [34]))) ++ [93]

/-- The command dispatch of `process_command` after trimming and
tokenizing: uppercase the first token and compare it against each command
name in source order.  Replies are returned together with the table that
results from the dispatched store operation (the C code mutates the table
through the pointer). -/
def dispatch (ht : HashTable) (trimmed : Bytes) (tokens : List Bytes) :
    Bytes × HashTable :=
  let tok0 := (tokens.headD []).map toupperByte
  if tok0 = bytes "SET" then
    if tokens.length < 3 then (bytes "ERROR: SET requires key and value", ht)
    else
      let p := setValueStart trimmed
      if p.isEmpty then (bytes "ERROR: SET requires a value", ht)
      else
        let r := ht_set allocAll ht (tokens.getD 1 []) p
        if r.1 = 0 then (bytes "OK", r.2)
        else (bytes "ERROR: Failed to set value", r.2)
  else if tok0 = bytes "GET" then
    if tokens.length < 2 then (bytes "ERROR: GET requires a key", ht)
    else
      match ht_get ht (tokens.getD 1 []) with
      | some v => (v, ht)
      | none => (bytes "NULL", ht)
  else if tok0 = bytes "DEL" then
    if tokens.length < 2 then (bytes "ERROR: DEL requires a key", ht)
    else
      let r := ht_delete ht (tokens.getD 1 [])
      if r.1 = 0 then (bytes "OK", r.2) else (bytes "NOT FOUND", r.2)
  else if tok0 = bytes "STATS" then (statsJson ht, ht)
  else if tok0 = bytes "KEYS" then (keysJson ht, ht)
  else if tok0 = bytes "PING" then (bytes "PONG", ht)
  else if tok0 = bytes "QUIT" then (bytes "BYE", ht)
  else ((bytes "ERROR: Unknown command " ++ [39] ++ tok0 ++ [39]).take 255, ht)

/-- server.c `process_command`: duplicate and trim the line, reject an
empty command, tokenize, and dispatch.  The unknown-command reply is built
by `snprintf` into a 256-byte buffer, hence the 255-byte truncation in
`dispatch`. -/
def process_command (ht : HashTable) (command : Bytes) : Bytes × HashTable :=
  let trimmed := trim_whitespace command
  if trimmed.isEmpty then (bytes "ERROR: Empty command", ht)
  else
    let tokens := parse_command trimmed
    if tokens.isEmpty then (bytes "ERROR: Empty command", ht)
    else dispatch ht trimmed tokens

/-! ## Operation sequences -/

/-- A store mutation issued by the interpreter layer: an upsert (with its
allocation oracle) or a delete. -/
inductive Op where
  | set : Alloc → Bytes → Bytes → Op
  | del : Bytes → Op
deriving DecidableEq

/-- Return code and resulting table of one operation. -/
def opResult (ht : HashTable) : Op → Int × HashTable
  | Op.set a k v => ht_set a ht k v
  | Op.del k => ht_delete ht k

/-- Run a sequence of operations. -/
def runOpsFrom (ht : HashTable) (ops : List Op) : HashTable :=
  ops.foldl (fun h op => (opResult h op).2) ht

/-- Run a sequence of operations from the table the server creates
(`ht_create(INITIAL_BUCKETS)`, server.c line 499). -/
def runOps (ops : List Op) : HashTable :=
  runOpsFrom (ht_create INITIAL_BUCKETS) ops

/-- Keys of the `ht_set` calls that returned 0 along a run. -/
def setKeysSucceeded : HashTable → List Op → List Bytes
  | _, [] => []
  | ht, op :: rest =>
    let r := opResult ht op
    match op with
    | Op.set _ k _ =>
      if r.1 = 0 then k :: setKeysSucceeded r.2 rest
      else setKeysSucceeded r.2 rest
    | Op.del _ => setKeysSucceeded r.2 rest

/-- Number of `ht_delete` calls that returned 0 along a run. -/
def delsSucceeded : HashTable → List Op → Nat
  | _, [] => 0
  | ht, op :: rest =>
    let r := opResult ht op
    match op with
    | Op.set _ _ _ => delsSucceeded r.2 rest
    | Op.del _ => (if r.1 = 0 then 1 else 0) + delsSucceeded r.2 rest

/-- Insert a fresh key-value list in order, `ht_set` with every allocation
succeeding, into the server's fresh table. -/
def runInserts (kvs : List (Bytes × Bytes)) : HashTable :=
  kvs.foldl (fun ht kv => (ht_set allocAll ht kv.1 kv.2).2)
    (ht_create INITIAL_BUCKETS)

/-! ## Invariants -/

/-- Structural well-formedness: a positive bucket count that matches the
length of the bucket array. -/
def WF (ht : HashTable) : Prop :=
  0 < ht.num_buckets ∧ ht.buckets.length = ht.num_buckets

/-- Every entry sits in the bucket its key hashes to. -/
def Placed (ht : HashTable) : Prop :=
  ∀ i, i < ht.buckets.length →
    ∀ e ∈ bucketAt ht i, bucketIdx ht.num_buckets e.key = i

/-- All keys in the table, buckets in index order, chains head-to-tail. -/
def allKeys (ht : HashTable) : List Bytes := ht.buckets.flatten.map (·.key)

/-- The full structural invariant: well-formed, correctly placed, no key
occurs twice anywhere in the table. -/
def Inv (ht : HashTable) : Prop := WF ht ∧ Placed ht ∧ (allKeys ht).Nodup

/-- `num_entries` equals the number of reachable entries. -/
def CountOK (ht : HashTable) : Prop :=
  ht.num_entries = ht.buckets.flatten.length

/-- Accounted size of all live entries. -/
def entriesMem (bs : List (List HashEntry)) : Nat :=
  (bs.flatten.map entry_memory).sum

/-- `memory_used` equals the fixed table overhead (header plus one pointer
slot per bucket) plus the accounted size of every live entry. -/
def MemOK (ht : HashTable) : Prop :=
  ht.memory_used
    = sizeof_HashTable + ht.num_buckets * sizeof_ptr + entriesMem ht.buckets


/-! ## Derived state abbreviations and invariants used by the proofs -/

/-- Placement invariant of the rehash accumulator: each accumulated entry
already sits at its index for the new bucket count. -/
def PlacedAcc (nb : Nat) (acc : List (List HashEntry)) : Prop :=
  ∀ i, i < acc.length → ∀ x ∈ acc.getD i [], bucketIdx nb x.key = i

/-- The table produced by the ht_set update path. -/
def updatedTable (ht : HashTable) (k v : Bytes) (e : HashEntry) : HashTable :=
  { ht with
      buckets := ht.buckets.set (bucketIdx ht.num_buckets k)
        (replaceValue k v (bucketAt ht (bucketIdx ht.num_buckets k)))
      memory_used := ht.memory_used - entry_memory e
        + entry_memory { e with value := v } }

/-- The table produced by the ht_set insert path. -/
def insertedTable (ht : HashTable) (k v : Bytes) : HashTable :=
  { ht with
      buckets := ht.buckets.set (bucketIdx ht.num_buckets k)
        (⟨k, v⟩ :: bucketAt ht (bucketIdx ht.num_buckets k))
      num_entries := ht.num_entries + 1
      memory_used := ht.memory_used + entry_memory ⟨k, v⟩ }

/-- The table produced by the ht_delete unlink path. -/
def deletedTable (ht : HashTable) (k : Bytes) (e : HashEntry) : HashTable :=
  { ht with
      buckets := ht.buckets.set (bucketIdx ht.num_buckets k)
        (removeKey k (bucketAt ht (bucketIdx ht.num_buckets k)))
      memory_used := ht.memory_used - entry_memory e
      num_entries := ht.num_entries - 1 }

/-- The table `ht_set` runs its insert-or-update pass on: the resized one
exactly when the load-factor check fired and the resize allocation
succeeded. -/
def preTable (a : Alloc) (ht : HashTable) : HashTable :=
  if 3 * ht.num_buckets < 4 * ht.num_entries then
    (if a.resizeOk then ht_resize ht else ht)
  else ht

/-! ## Concrete test keys for witnesses -/

/-- `testKey i` is the three ASCII bytes `k<tens><ones>`; distinct for
`i < 100`. -/
def testKey (i : Nat) : Bytes := [107, 48 + i / 10, 48 + i % 10]

/-- `n` distinct key-value pairs `k<i> : v<i>`. -/
def testKVs (n : Nat) : List (Bytes × Bytes) :=
  (List.range n).map (fun i => (testKey i, [118, 48 + i / 10, 48 + i % 10]))



/-- The replayed-key scenario: set `a`, delete it, set it again. -/
def c7ops : List Op :=
  [Op.set allocAll [97] [98], Op.del [97], Op.set allocAll [97] [98]]

/-- A table holding the single entry `a : b`. -/
def oneEntryTable : HashTable := (ht_set allocAll (ht_create 64) [97] [98]).2

/-- A table storing the four bytes `NULL` under the key `a`. -/
def nullValueTable : HashTable :=
  (ht_set allocAll (ht_create 64) [97] (bytes "NULL")).2

instance (ht : HashTable) : Decidable (WF ht) := by
  unfold WF; infer_instance

instance (ht : HashTable) : Decidable (Placed ht) := by
  unfold Placed; infer_instance

instance (ht : HashTable) : Decidable (Inv ht) := by
  unfold Inv; infer_instance

instance (ht : HashTable) : Decidable (CountOK ht) := by
  unfold CountOK; infer_instance

instance (ht : HashTable) : Decidable (MemOK ht) := by
  unfold MemOK; infer_instance


/-! ## List-level helper lemmas -/

theorem getD_set_self {α : Type} (bs : List α) (i : Nat) (c d : α)
    (h : i < bs.length) : (bs.set i c).getD i d = c := by
  induction bs generalizing i with
  | nil => simp at h
  | cons b rest ih =>
    cases i with
    | zero => rfl
    | succ j => simpa using ih j (by simpa using h)

theorem getD_set_ne {α : Type} (bs : List α) (i j : Nat) (c d : α)
    (h : i ≠ j) : (bs.set i c).getD j d = bs.getD j d := by
  induction bs generalizing i j with
  | nil => simp
  | cons b rest ih =>
    cases i with
    | zero => cases j with
      | zero => exact absurd rfl h
      | succ j' => rfl
    | succ i' =>
      cases j with
      | zero => rfl
      | succ j' => simpa using ih i' j' (by omega)

theorem getD_replicate_nil {α : Type} (n i : Nat) :
    (List.replicate n ([] : List α)).getD i [] = [] := by
  induction n generalizing i with
  | zero => simp
  | succ m ih =>
    cases i with
    | zero => rfl
    | succ j => exact ih j

theorem flatten_replicate_nil {α : Type} (n : Nat) :
    (List.replicate n ([] : List α)).flatten = [] := by
  induction n with
  | zero => rfl
  | succ m ih => simp [ih]

/-- Splitting the flattened table at a bucket: replacing that bucket's chain
replaces exactly the corresponding segment of the flattened entry list. -/
theorem flatten_set_decomp {α : Type} (bs : List (List α)) (i : Nat)
    (h : i < bs.length) :
    ∃ pre suf, bs.flatten = pre ++ bs.getD i [] ++ suf ∧
      ∀ c, (bs.set i c).flatten = pre ++ c ++ suf := by
  induction bs generalizing i with
  | nil => simp at h
  | cons b rest ih =>
    cases i with
    | zero =>
      exact ⟨[], rest.flatten, by simp [List.getD], fun c => by simp⟩
    | succ j =>
      obtain ⟨pre, suf, h1, h2⟩ := ih j (by simpa using h)
      refine ⟨b ++ pre, suf, ?_, fun c => ?_⟩
      · simp only [List.flatten_cons, h1, List.getD]
        simp [List.append_assoc]
      · simp only [List.set_cons_succ, List.flatten_cons, h2 c]
        simp [List.append_assoc]

theorem mem_getD_flatten {α : Type} {bs : List (List α)} {i : Nat} {x : α}
    (h : x ∈ bs.getD i []) : x ∈ bs.flatten := by
  induction bs generalizing i with
  | nil => simp [List.getD] at h
  | cons b rest ih =>
    cases i with
    | zero => exact List.mem_flatten.2 ⟨b, by simp, h⟩
    | succ j =>
      simp only [List.flatten_cons, List.mem_append]
      exact Or.inr (ih (by simpa using h))

theorem mem_flatten_getD {α : Type} {bs : List (List α)} {x : α}
    (h : x ∈ bs.flatten) : ∃ i, i < bs.length ∧ x ∈ bs.getD i [] := by
  induction bs with
  | nil => simp at h
  | cons b rest ih =>
    rw [List.flatten_cons] at h
    rcases List.mem_append.1 h with hb | hr
    · exact ⟨0, by simp, hb⟩
    · obtain ⟨i, hi, hx⟩ := ih hr
      exact ⟨i + 1, by simpa using hi, by simpa using hx⟩

/-! ## Chain-level lemmas -/

/-- Decomposition of a successful chain scan: the chain splits at the first
entry whose key matches, and the update and delete rewrites act exactly on
that entry. -/
theorem find?_key_decomp {k : Bytes} {chain : List HashEntry} {e : HashEntry}
    (h : chain.find? (fun x => x.key == k) = some e) :
    e.key = k ∧ ∃ c1 c2, chain = c1 ++ e :: c2 ∧ (∀ x ∈ c1, x.key ≠ k) ∧
      removeKey k chain = c1 ++ c2 ∧
      (∀ v, replaceValue k v chain = c1 ++ { e with value := v } :: c2) := by
  induction chain with
  | nil => simp at h
  | cons x rest ih =>
    by_cases hx : x.key = k
    · have : e = x := by
        rw [List.find?_cons_of_pos _ (by simpa using hx)] at h
        exact (Option.some_inj.1 h).symm
      subst this
      refine ⟨hx, [], rest, by simp, by simp, ?_, fun v => ?_⟩
      · simp [removeKey, hx]
      · simp [replaceValue, hx]
    · rw [List.find?_cons_of_neg _ (by simpa using hx)] at h
      obtain ⟨hek, c1, c2, hc, hc1, hrem, hrep⟩ := ih h
      refine ⟨hek, x :: c1, c2, by simp [hc], ?_, ?_, fun v => ?_⟩
      · intro y hy
        rcases List.mem_cons.1 hy with rfl | hy'
        · exact hx
        · exact hc1 y hy'
      · simp [removeKey, hx, hrem]
      · simp [replaceValue, hx, hrep v]

theorem find?_key_eq_none {k : Bytes} {chain : List HashEntry}
    (h : chain.find? (fun x => x.key == k) = none) :
    ∀ x ∈ chain, x.key ≠ k := by
  intro x hx
  have := List.find?_eq_none.1 h x hx
  simpa using this

theorem keys_replaceValue (k v : Bytes) (c : List HashEntry) :
    (replaceValue k v c).map HashEntry.key = c.map HashEntry.key := by
  induction c with
  | nil => rfl
  | cons x rest ih =>
    by_cases hx : x.key = k
    · simp [replaceValue, hx]
    · simp [replaceValue, hx, ih]

theorem length_replaceValue (k v : Bytes) (c : List HashEntry) :
    (replaceValue k v c).length = c.length := by
  induction c with
  | nil => rfl
  | cons x rest ih =>
    by_cases hx : x.key = k
    · simp [replaceValue, hx]
    · simp [replaceValue, hx, ih]

theorem find?_replaceValue_ne {k k' : Bytes} (v : Bytes) (c : List HashEntry)
    (h : k' ≠ k) :
    (replaceValue k v c).find? (fun x => x.key == k')
      = c.find? (fun x => x.key == k') := by
  induction c with
  | nil => rfl
  | cons x rest ih =>
    by_cases hx : x.key = k
    · have hxk' : ¬ x.key = k' := by rw [hx]; exact fun hh => h hh.symm
      simp only [replaceValue, if_pos hx]
      rw [List.find?_cons_of_neg _ (by simpa using hxk'),
        List.find?_cons_of_neg _ (by simpa using hxk')]
    · simp only [replaceValue, if_neg hx]
      by_cases hxk' : x.key = k'
      · rw [List.find?_cons_of_pos _ (by simpa using hxk'),
          List.find?_cons_of_pos _ (by simpa using hxk')]
      · rw [List.find?_cons_of_neg _ (by simpa using hxk'),
          List.find?_cons_of_neg _ (by simpa using hxk'), ih]

theorem find?_append_skip {α : Type} {p : α → Bool} {c1 c2 : List α}
    (h1 : ∀ x ∈ c1, p x = false) : (c1 ++ c2).find? p = c2.find? p := by
  induction c1 with
  | nil => rfl
  | cons y ys ih =>
    simp only [List.cons_append]
    rw [List.find?_cons_of_neg _ (by simp [h1 y (by simp)])]
    exact ih (fun x hx => h1 x (by simp [hx]))

theorem find?_replaceValue_self {k : Bytes} (v : Bytes) {c : List HashEntry}
    {e : HashEntry} (h : c.find? (fun x => x.key == k) = some e) :
    (replaceValue k v c).find? (fun x => x.key == k)
      = some { e with value := v } := by
  obtain ⟨hek, c1, c2, hc, hc1, _, hrep⟩ := find?_key_decomp h
  rw [hrep v, find?_append_skip (fun x hx => by simp [hc1 x hx])]
  exact List.find?_cons_of_pos _ (by simpa using hek)


/-! ## Rehash and resize lemmas -/

theorem length_moveEntry (nb : Nat) (acc : List (List HashEntry))
    (e : HashEntry) : (moveEntry nb acc e).length = acc.length := by
  simp [moveEntry]

theorem length_rehash (nb : Nat) (es : List HashEntry)
    (acc : List (List HashEntry)) : (rehash nb es acc).length = acc.length := by
  induction es generalizing acc with
  | nil => rfl
  | cons e rest ih =>
    simp only [rehash, List.foldl_cons]
    rw [show (rest.foldl (moveEntry nb) (moveEntry nb acc e))
        = rehash nb rest (moveEntry nb acc e) from rfl, ih, length_moveEntry]

theorem flatten_moveEntry_perm {nb : Nat} {acc : List (List HashEntry)}
    (e : HashEntry) (hlen : acc.length = nb) (hnb : 0 < nb) :
    (moveEntry nb acc e).flatten.Perm (e :: acc.flatten) := by
  have hidx : bucketIdx nb e.key < acc.length := by
    rw [hlen]; exact Nat.mod_lt _ hnb
  obtain ⟨pre, suf, h1, h2⟩ := flatten_set_decomp acc (bucketIdx nb e.key) hidx
  rw [moveEntry, h2, h1]
  have e1 : pre ++ (e :: acc.getD (bucketIdx nb e.key) []) ++ suf
      = pre ++ e :: (acc.getD (bucketIdx nb e.key) [] ++ suf) := by
    simp [List.append_assoc]
  have e2 : pre ++ acc.getD (bucketIdx nb e.key) [] ++ suf
      = pre ++ (acc.getD (bucketIdx nb e.key) [] ++ suf) := by
    simp [List.append_assoc]
  rw [e1, e2]
  exact List.perm_middle

theorem rehash_flatten_perm {nb : Nat} (es : List HashEntry)
    {acc : List (List HashEntry)} (hnb : 0 < nb) (hlen : acc.length = nb) :
    (rehash nb es acc).flatten.Perm (es ++ acc.flatten) := by
  induction es generalizing acc with
  | nil => simp [rehash]
  | cons e rest ih =>
    have step : (rehash nb (e :: rest) acc) = rehash nb rest (moveEntry nb acc e) := rfl
    rw [step]
    have h1 := @ih (moveEntry nb acc e) (by rw [length_moveEntry, hlen])
    have h2 : (rest ++ (moveEntry nb acc e).flatten).Perm
        (rest ++ e :: acc.flatten) :=
      List.Perm.append_left rest (flatten_moveEntry_perm e hlen hnb)
    have h3 : (rest ++ e :: acc.flatten).Perm (e :: (rest ++ acc.flatten)) :=
      List.perm_middle
    exact ((h1.trans h2).trans h3)

theorem placedAcc_moveEntry {nb : Nat} {acc : List (List HashEntry)}
    (e : HashEntry) (hlen : acc.length = nb) (hnb : 0 < nb)
    (hp : PlacedAcc nb acc) : PlacedAcc nb (moveEntry nb acc e) := by
  intro i hi x hx
  rw [length_moveEntry] at hi
  by_cases hieq : bucketIdx nb e.key = i
  · subst hieq
    rw [moveEntry, getD_set_self _ _ _ _ (by rw [hlen]; exact Nat.mod_lt _ hnb)]
      at hx
    rcases List.mem_cons.1 hx with rfl | hx'
    · rfl
    · exact hp _ hi x hx'
  · rw [moveEntry, getD_set_ne _ _ _ _ _ hieq] at hx
    exact hp _ hi x hx

theorem placedAcc_rehash {nb : Nat} (es : List HashEntry)
    {acc : List (List HashEntry)} (hnb : 0 < nb) (hlen : acc.length = nb)
    (hp : PlacedAcc nb acc) : PlacedAcc nb (rehash nb es acc) := by
  induction es generalizing acc with
  | nil => exact hp
  | cons e rest ih =>
    exact @ih (moveEntry nb acc e) (by rw [length_moveEntry, hlen])
      (placedAcc_moveEntry e hlen hnb hp)

theorem resize_num_buckets (ht : HashTable) :
    (ht_resize ht).num_buckets = ht.num_buckets * 2 := rfl

theorem resize_num_entries (ht : HashTable) :
    (ht_resize ht).num_entries = ht.num_entries := rfl

theorem resize_WF {ht : HashTable} (h : WF ht) : WF (ht_resize ht) := by
  obtain ⟨h1, h2⟩ := h
  exact ⟨by simp [ht_resize]; omega,
    by simp [ht_resize, length_rehash, List.length_replicate]⟩

theorem resize_flatten_perm {ht : HashTable} (h : WF ht) :
    (ht_resize ht).buckets.flatten.Perm ht.buckets.flatten := by
  obtain ⟨h1, h2⟩ := h
  have hnb : 0 < ht.num_buckets * 2 := by omega
  have := @rehash_flatten_perm (ht.num_buckets * 2) ht.buckets.flatten
    (List.replicate (ht.num_buckets * 2) []) hnb (by simp)
  simpa [ht_resize, flatten_replicate_nil] using this

theorem resize_placed {ht : HashTable} (h : WF ht) : Placed (ht_resize ht) := by
  obtain ⟨h1, h2⟩ := h
  have hnb : 0 < ht.num_buckets * 2 := by omega
  intro i hi x hx
  have hp := @placedAcc_rehash (ht.num_buckets * 2) ht.buckets.flatten
    (List.replicate (ht.num_buckets * 2) []) hnb (by simp)
    (by intro i hi x hx; rw [getD_replicate_nil] at hx; simp at hx)
  exact hp i hi x hx

theorem resize_Inv {ht : HashTable} (h : Inv ht) : Inv (ht_resize ht) := by
  obtain ⟨hwf, _, hnd⟩ := h
  refine ⟨resize_WF hwf, resize_placed hwf, ?_⟩
  exact (List.Perm.map HashEntry.key (resize_flatten_perm hwf)).nodup_iff.2 hnd

theorem resize_CountOK {ht : HashTable} (hwf : WF ht) (h : CountOK ht) :
    CountOK (ht_resize ht) := by
  unfold CountOK at *
  rw [resize_num_entries, (resize_flatten_perm hwf).length_eq, h]

theorem resize_MemOK {ht : HashTable} (hwf : WF ht) (h : MemOK ht) :
    MemOK (ht_resize ht) := by
  unfold MemOK at *
  have hmem : entriesMem (ht_resize ht).buckets = entriesMem ht.buckets := by
    unfold entriesMem
    exact ((resize_flatten_perm hwf).map entry_memory).sum_eq
  have hb : (ht_resize ht).num_buckets = ht.num_buckets * 2 := rfl
  have hm : (ht_resize ht).memory_used
      = ht.memory_used - ht.num_buckets * sizeof_ptr
        + ht.num_buckets * 2 * sizeof_ptr := rfl
  rw [hm, hb, hmem, h]
  unfold sizeof_HashTable sizeof_ptr
  omega


/-! ## Lookup characterization -/

theorem bucketAt_eq (ht : HashTable) (i : Nat) :
    bucketAt ht i = ht.buckets.getD i [] := rfl

theorem ht_get_eq_none_iff {ht : HashTable} (_hwf : WF ht) (hp : Placed ht)
    (k : Bytes) :
    ht_get ht k = none ↔ ∀ e ∈ ht.buckets.flatten, e.key ≠ k := by
  unfold ht_get
  rw [Option.map_eq_none']
  constructor
  · intro hfind e he hek
    obtain ⟨i, hi, hgi⟩ := mem_flatten_getD he
    have hidx : bucketIdx ht.num_buckets k = i := by
      rw [← hek]; exact hp i hi e (by rw [bucketAt_eq]; exact hgi)
    subst hidx
    exact find?_key_eq_none hfind e (by rw [bucketAt_eq]; exact hgi) hek
  · intro h
    apply List.find?_eq_none.2
    intro x hx
    simp only [beq_iff_eq]
    exact h x (mem_getD_flatten (by rw [← bucketAt_eq]; exact hx))

theorem ht_get_eq_some_iff {ht : HashTable} (hInv : Inv ht) (k v : Bytes) :
    ht_get ht k = some v
      ↔ ∃ e ∈ ht.buckets.flatten, e.key = k ∧ e.value = v := by
  obtain ⟨hwf, hp, hnd⟩ := hInv
  unfold ht_get
  constructor
  · intro h
    rw [Option.map_eq_some'] at h
    obtain ⟨e, hfind, hv⟩ := h
    have hek : e.key = k := by simpa using List.find?_some hfind
    refine ⟨e, ?_, hek, hv⟩
    exact mem_getD_flatten
      (by rw [← bucketAt_eq]; exact List.mem_of_find?_eq_some hfind)
  · rintro ⟨e, he, hek, hv⟩
    obtain ⟨i, hi, hgi⟩ := mem_flatten_getD he
    have hgB : e ∈ bucketAt ht i := by rw [bucketAt_eq]; exact hgi
    have hidx : bucketIdx ht.num_buckets k = i := by
      rw [← hek]; exact hp i hi e hgB
    subst hidx
    cases hfind : (bucketAt ht (bucketIdx ht.num_buckets k)).find?
        (fun x => x.key == k) with
    | none => exact absurd hek (find?_key_eq_none hfind e hgB)
    | some e' =>
      have he'k : e'.key = k := by simpa using List.find?_some hfind
      have he'mem : e' ∈ ht.buckets.flatten := mem_getD_flatten
        (by rw [← bucketAt_eq]; exact List.mem_of_find?_eq_some hfind)
      have heq : e' = e :=
        List.inj_on_of_nodup_map hnd he'mem he (by rw [he'k, hek])
      simp [heq, hv]

/-- Under the invariant, resizing never changes the result of a lookup. -/
theorem resize_get {ht : HashTable} (hInv : Inv ht) (k : Bytes) :
    ht_get (ht_resize ht) k = ht_get ht k := by
  have hInv' := resize_Inv hInv
  have hperm := resize_flatten_perm hInv.1
  cases hv : ht_get ht k with
  | none =>
    rw [ht_get_eq_none_iff hInv'.1 hInv'.2.1]
    intro e he
    exact (ht_get_eq_none_iff hInv.1 hInv.2.1 k).1 hv e (hperm.mem_iff.1 he)
  | some v =>
    rw [ht_get_eq_some_iff hInv']
    obtain ⟨e, he, hek, hev⟩ := (ht_get_eq_some_iff hInv k v).1 hv
    exact ⟨e, hperm.mem_iff.2 he, hek, hev⟩

/-! ## ht_set_inner equations and lemmas -/

theorem ht_get_mk (bs : List (List HashEntry)) (nb ne mu : Nat) (k : Bytes) :
    ht_get ⟨bs, nb, ne, mu⟩ k
      = ((bs.getD (bucketIdx nb k) []).find? (fun e => e.key == k)).map
          (·.value) := rfl

theorem ht_set_inner_update_ok {ht : HashTable} {k : Bytes} {e : HashEntry}
    (hfind : (bucketAt ht (bucketIdx ht.num_buckets k)).find?
      (fun x => x.key == k) = some e) (v : Bytes) :
    ht_set_inner true ht k v = (0, updatedTable ht k v e) := by
  simp only [ht_set_inner, updatedTable]
  rw [hfind]
  simp

theorem ht_set_inner_insert_ok {ht : HashTable} {k : Bytes}
    (hfind : (bucketAt ht (bucketIdx ht.num_buckets k)).find?
      (fun x => x.key == k) = none) (v : Bytes) :
    ht_set_inner true ht k v = (0, insertedTable ht k v) := by
  simp only [ht_set_inner, insertedTable]
  rw [hfind]
  simp

theorem ht_set_inner_entry_fail (ht : HashTable) (k v : Bytes) :
    ht_set_inner false ht k v = (-1, ht) := by
  simp only [ht_set_inner]
  cases hfind : (bucketAt ht (bucketIdx ht.num_buckets k)).find?
      (fun x => x.key == k) <;> simp

theorem ht_set_inner_code (ht : HashTable) (k v : Bytes) :
    (ht_set_inner true ht k v).1 = 0 := by
  cases hfind : (bucketAt ht (bucketIdx ht.num_buckets k)).find?
      (fun x => x.key == k) with
  | none => rw [ht_set_inner_insert_ok hfind]
  | some e => rw [ht_set_inner_update_ok hfind]

theorem ht_set_inner_num_buckets (eok : Bool) (ht : HashTable) (k v : Bytes) :
    (ht_set_inner eok ht k v).2.num_buckets = ht.num_buckets := by
  cases eok with
  | false => rw [ht_set_inner_entry_fail]
  | true =>
    cases hfind : (bucketAt ht (bucketIdx ht.num_buckets k)).find?
        (fun x => x.key == k) with
    | none => rw [ht_set_inner_insert_ok hfind]; rfl
    | some e => rw [ht_set_inner_update_ok hfind]; rfl

theorem ht_set_inner_get_same {ht : HashTable} (hwf : WF ht) (k v : Bytes) :
    ht_get (ht_set_inner true ht k v).2 k = some v := by
  have hidx : bucketIdx ht.num_buckets k < ht.buckets.length := by
    rw [hwf.2]; exact Nat.mod_lt _ hwf.1
  cases hfind : (bucketAt ht (bucketIdx ht.num_buckets k)).find?
      (fun x => x.key == k) with
  | some e =>
    rw [ht_set_inner_update_ok hfind]
    show ht_get (updatedTable ht k v e) k = some v
    unfold updatedTable
    rw [ht_get_mk, getD_set_self _ _ _ _ hidx]
    rw [find?_replaceValue_self v hfind]
    rfl
  | none =>
    rw [ht_set_inner_insert_ok hfind]
    show ht_get (insertedTable ht k v) k = some v
    unfold insertedTable
    rw [ht_get_mk, getD_set_self _ _ _ _ hidx,
      List.find?_cons_of_pos _ (by simp)]
    rfl

theorem ht_set_inner_get_other {ht : HashTable} (hwf : WF ht) {k k' : Bytes}
    (v : Bytes) (hne : k' ≠ k) :
    ht_get (ht_set_inner true ht k v).2 k' = ht_get ht k' := by
  have hidx : bucketIdx ht.num_buckets k < ht.buckets.length := by
    rw [hwf.2]; exact Nat.mod_lt _ hwf.1
  have hgetold : ht_get ht k'
      = ((bucketAt ht (bucketIdx ht.num_buckets k')).find?
          (fun e => e.key == k')).map (·.value) := rfl
  cases hfind : (bucketAt ht (bucketIdx ht.num_buckets k)).find?
      (fun x => x.key == k) with
  | some e =>
    rw [ht_set_inner_update_ok hfind]
    show ht_get (updatedTable ht k v e) k' = ht_get ht k'
    unfold updatedTable
    rw [ht_get_mk, hgetold]
    by_cases hsame : bucketIdx ht.num_buckets k' = bucketIdx ht.num_buckets k
    · rw [hsame, getD_set_self _ _ _ _ hidx]
      rw [find?_replaceValue_ne v _ hne]
    · rw [getD_set_ne _ _ _ _ _ (fun hh => hsame hh.symm)]
      rfl
  | none =>
    rw [ht_set_inner_insert_ok hfind]
    show ht_get (insertedTable ht k v) k' = ht_get ht k'
    unfold insertedTable
    rw [ht_get_mk, hgetold]
    by_cases hsame : bucketIdx ht.num_buckets k' = bucketIdx ht.num_buckets k
    · rw [hsame, getD_set_self _ _ _ _ hidx,
        List.find?_cons_of_neg _ (by simpa using fun hh => hne hh.symm)]
    · rw [getD_set_ne _ _ _ _ _ (fun hh => hsame hh.symm)]
      rfl


/-! ## Component equations and aggregate sums -/

theorem updatedTable_buckets (ht : HashTable) (k v : Bytes) (e : HashEntry) :
    (updatedTable ht k v e).buckets
      = ht.buckets.set (bucketIdx ht.num_buckets k)
          (replaceValue k v (bucketAt ht (bucketIdx ht.num_buckets k))) := rfl

theorem updatedTable_num_buckets (ht : HashTable) (k v : Bytes)
    (e : HashEntry) : (updatedTable ht k v e).num_buckets = ht.num_buckets :=
  rfl

theorem updatedTable_num_entries (ht : HashTable) (k v : Bytes)
    (e : HashEntry) : (updatedTable ht k v e).num_entries = ht.num_entries :=
  rfl

theorem updatedTable_memory (ht : HashTable) (k v : Bytes) (e : HashEntry) :
    (updatedTable ht k v e).memory_used
      = ht.memory_used - entry_memory e
          + entry_memory { e with value := v } := rfl

theorem insertedTable_buckets (ht : HashTable) (k v : Bytes) :
    (insertedTable ht k v).buckets
      = ht.buckets.set (bucketIdx ht.num_buckets k)
          (⟨k, v⟩ :: bucketAt ht (bucketIdx ht.num_buckets k)) := rfl

theorem insertedTable_num_buckets (ht : HashTable) (k v : Bytes) :
    (insertedTable ht k v).num_buckets = ht.num_buckets := rfl

theorem insertedTable_num_entries (ht : HashTable) (k v : Bytes) :
    (insertedTable ht k v).num_entries = ht.num_entries + 1 := rfl

theorem insertedTable_memory (ht : HashTable) (k v : Bytes) :
    (insertedTable ht k v).memory_used
      = ht.memory_used + entry_memory ⟨k, v⟩ := rfl

theorem entriesMem_set {bs : List (List HashEntry)} {i : Nat}
    (c : List HashEntry) (h : i < bs.length) :
    entriesMem (bs.set i c) + ((bs.getD i []).map entry_memory).sum
      = entriesMem bs + (c.map entry_memory).sum := by
  obtain ⟨pre, suf, h1, h2⟩ := flatten_set_decomp bs i h
  unfold entriesMem
  rw [h1, h2 c]
  simp only [List.map_append, List.sum_append]
  omega

theorem flatten_length_set {bs : List (List HashEntry)} {i : Nat}
    (c : List HashEntry) (h : i < bs.length) :
    (bs.set i c).flatten.length + (bs.getD i []).length
      = bs.flatten.length + c.length := by
  obtain ⟨pre, suf, h1, h2⟩ := flatten_set_decomp bs i h
  rw [h1, h2 c]
  simp only [List.length_append]
  omega

theorem chain_sum_replace {k : Bytes} {chain : List HashEntry} {e : HashEntry}
    (hfind : chain.find? (fun x => x.key == k) = some e) (v : Bytes) :
    ((replaceValue k v chain).map entry_memory).sum + entry_memory e
      = (chain.map entry_memory).sum
          + entry_memory { e with value := v } := by
  obtain ⟨_, c1, c2, hc, _, _, hrep⟩ := find?_key_decomp hfind
  rw [hrep v, hc]
  simp only [List.map_append, List.sum_append, List.map_cons, List.sum_cons]
  omega

theorem chain_sum_remove {k : Bytes} {chain : List HashEntry} {e : HashEntry}
    (hfind : chain.find? (fun x => x.key == k) = some e) :
    ((removeKey k chain).map entry_memory).sum + entry_memory e
      = (chain.map entry_memory).sum := by
  obtain ⟨_, c1, c2, hc, _, hrem, _⟩ := find?_key_decomp hfind
  rw [hrem, hc]
  simp only [List.map_append, List.sum_append, List.map_cons, List.sum_cons]
  omega

theorem chain_length_remove {k : Bytes} {chain : List HashEntry}
    {e : HashEntry} (hfind : chain.find? (fun x => x.key == k) = some e) :
    (removeKey k chain).length + 1 = chain.length := by
  obtain ⟨_, c1, c2, hc, _, hrem, _⟩ := find?_key_decomp hfind
  rw [hrem, hc]
  simp only [List.length_append, List.length_cons]
  omega

theorem mem_flatten_em_le {bs : List (List HashEntry)} {e : HashEntry}
    (h : e ∈ bs.flatten) : entry_memory e ≤ entriesMem bs :=
  List.single_le_sum (by simp) _ (List.mem_map_of_mem _ h)

/-! ## Invariant preservation: the ht_set update path -/

theorem mem_replaceValue_key {k v : Bytes} {c : List HashEntry}
    {x : HashEntry} (hx : x ∈ replaceValue k v c) :
    ∃ y ∈ c, y.key = x.key := by
  have : x.key ∈ (replaceValue k v c).map HashEntry.key :=
    List.mem_map_of_mem _ hx
  rw [keys_replaceValue] at this
  obtain ⟨y, hy, hyk⟩ := List.mem_map.1 this
  exact ⟨y, hy, hyk⟩

theorem updatedTable_allKeys {ht : HashTable} {k : Bytes} (v : Bytes)
    (e : HashEntry) (hidx : bucketIdx ht.num_buckets k < ht.buckets.length) :
    allKeys (updatedTable ht k v e) = allKeys ht := by
  obtain ⟨pre, suf, h1, h2⟩ :=
    flatten_set_decomp ht.buckets (bucketIdx ht.num_buckets k) hidx
  unfold allKeys
  rw [updatedTable_buckets, h2, h1, bucketAt_eq]
  simp [keys_replaceValue]

theorem updatedTable_Inv {ht : HashTable} {k : Bytes} (v : Bytes)
    (e : HashEntry) (hInv : Inv ht) : Inv (updatedTable ht k v e) := by
  obtain ⟨⟨hpos, hlen⟩, hp, hnd⟩ := hInv
  have hidx : bucketIdx ht.num_buckets k < ht.buckets.length := by
    rw [hlen]; exact Nat.mod_lt _ hpos
  refine ⟨⟨hpos, ?_⟩, ?_, ?_⟩
  · rw [updatedTable_buckets, List.length_set, hlen]
    rfl
  · intro i hi x hx
    rw [updatedTable_buckets, List.length_set] at hi
    rw [show bucketAt (updatedTable ht k v e) i
        = ((updatedTable ht k v e).buckets).getD i [] from rfl,
      updatedTable_buckets] at hx
    rw [show (updatedTable ht k v e).num_buckets = ht.num_buckets from rfl]
    by_cases hsame : bucketIdx ht.num_buckets k = i
    · rw [← hsame] at hx ⊢
      rw [getD_set_self _ _ _ _ hidx] at hx
      obtain ⟨y, hy, hyk⟩ := mem_replaceValue_key hx
      rw [← hyk]
      exact hp _ (by rw [← hsame] at hi; exact hi) y hy
    · rw [getD_set_ne _ _ _ _ _ hsame] at hx
      exact hp i hi x hx
  · rw [updatedTable_allKeys v e hidx]
    exact hnd

/-! ## Invariant preservation: the ht_set insert path -/

theorem insertedTable_allKeys_perm {ht : HashTable} {k : Bytes} (v : Bytes)
    (hidx : bucketIdx ht.num_buckets k < ht.buckets.length) :
    (allKeys (insertedTable ht k v)).Perm (k :: allKeys ht) := by
  obtain ⟨pre, suf, h1, h2⟩ :=
    flatten_set_decomp ht.buckets (bucketIdx ht.num_buckets k) hidx
  unfold allKeys
  rw [insertedTable_buckets, h2, h1, bucketAt_eq]
  simp only [List.map_append, List.map_cons]
  have hmid : (pre.map HashEntry.key
      ++ (HashEntry.key ⟨k, v⟩ :: (ht.buckets.getD (bucketIdx ht.num_buckets k) []).map HashEntry.key)
      ++ suf.map HashEntry.key).Perm
      (pre.map HashEntry.key
        ++ ((ht.buckets.getD (bucketIdx ht.num_buckets k) []).map HashEntry.key)
        ++ suf.map HashEntry.key
        |> List.cons (HashEntry.key ⟨k, v⟩)) := by
    have := @List.perm_middle _ (HashEntry.key ⟨k, v⟩)
      (pre.map HashEntry.key)
      ((ht.buckets.getD (bucketIdx ht.num_buckets k) []).map HashEntry.key
        ++ suf.map HashEntry.key)
    simp only [List.append_assoc]
    simp [List.append_assoc] at this ⊢
  simp at hmid ⊢

theorem key_not_mem_of_find?_none {ht : HashTable} {k : Bytes}
    (_hwf : WF ht) (hp : Placed ht)
    (hfind : (bucketAt ht (bucketIdx ht.num_buckets k)).find?
      (fun x => x.key == k) = none) :
    k ∉ allKeys ht := by
  intro hk
  obtain ⟨x, hx, hxk⟩ := List.mem_map.1 hk
  obtain ⟨i, hi, hgi⟩ := mem_flatten_getD hx
  have : bucketIdx ht.num_buckets k = i := by
    rw [← hxk]; exact hp i hi x (by rw [bucketAt_eq]; exact hgi)
  subst this
  exact find?_key_eq_none hfind x (by rw [bucketAt_eq]; exact hgi) hxk

theorem insertedTable_Inv {ht : HashTable} {k : Bytes} (v : Bytes)
    (hInv : Inv ht)
    (hfind : (bucketAt ht (bucketIdx ht.num_buckets k)).find?
      (fun x => x.key == k) = none) : Inv (insertedTable ht k v) := by
  obtain ⟨⟨hpos, hlen⟩, hp, hnd⟩ := hInv
  have hidx : bucketIdx ht.num_buckets k < ht.buckets.length := by
    rw [hlen]; exact Nat.mod_lt _ hpos
  refine ⟨⟨hpos, ?_⟩, ?_, ?_⟩
  · rw [insertedTable_buckets, List.length_set, hlen]
    rfl
  · intro i hi x hx
    rw [insertedTable_buckets, List.length_set] at hi
    rw [show bucketAt (insertedTable ht k v) i
        = ((insertedTable ht k v).buckets).getD i [] from rfl,
      insertedTable_buckets] at hx
    rw [show (insertedTable ht k v).num_buckets = ht.num_buckets from rfl]
    by_cases hsame : bucketIdx ht.num_buckets k = i
    · rw [← hsame] at hx ⊢
      rw [getD_set_self _ _ _ _ hidx] at hx
      rcases List.mem_cons.1 hx with rfl | hx'
      · rfl
      · exact hp _ (by rw [← hsame] at hi; exact hi) x hx'
    · rw [getD_set_ne _ _ _ _ _ hsame] at hx
      exact hp i hi x hx
  · apply (insertedTable_allKeys_perm v hidx).nodup_iff.2
    exact List.nodup_cons.2
      ⟨key_not_mem_of_find?_none ⟨hpos, hlen⟩ hp hfind, hnd⟩


/-! ## Count and memory preservation for the set paths -/

theorem chain_sum_le_entriesMem {bs : List (List HashEntry)} {i : Nat}
    (h : i < bs.length) :
    ((bs.getD i []).map entry_memory).sum ≤ entriesMem bs := by
  obtain ⟨pre, suf, h1, _⟩ := flatten_set_decomp bs i h
  unfold entriesMem
  rw [h1]
  simp only [List.map_append, List.sum_append]
  omega

theorem chain_length_le_flatten {bs : List (List HashEntry)} {i : Nat}
    (h : i < bs.length) : (bs.getD i []).length ≤ bs.flatten.length := by
  obtain ⟨pre, suf, h1, _⟩ := flatten_set_decomp bs i h
  rw [h1]
  simp only [List.length_append]
  omega

theorem updatedTable_CountOK {ht : HashTable} {k : Bytes} (v : Bytes)
    (e : HashEntry) (hidx : bucketIdx ht.num_buckets k < ht.buckets.length)
    (h : CountOK ht) : CountOK (updatedTable ht k v e) := by
  unfold CountOK at *
  rw [updatedTable_num_entries, updatedTable_buckets]
  have hl := flatten_length_set
    (replaceValue k v (bucketAt ht (bucketIdx ht.num_buckets k))) hidx
  rw [length_replaceValue] at hl
  simp only [bucketAt_eq] at hl ⊢
  omega

theorem insertedTable_CountOK {ht : HashTable} {k : Bytes} (v : Bytes)
    (hidx : bucketIdx ht.num_buckets k < ht.buckets.length)
    (h : CountOK ht) : CountOK (insertedTable ht k v) := by
  unfold CountOK at *
  rw [insertedTable_num_entries, insertedTable_buckets]
  have hl := flatten_length_set
    ((⟨k, v⟩ : HashEntry) :: bucketAt ht (bucketIdx ht.num_buckets k)) hidx
  rw [List.length_cons] at hl
  simp only [bucketAt_eq] at hl ⊢
  omega

theorem updatedTable_MemOK {ht : HashTable} {k : Bytes} {e : HashEntry}
    (v : Bytes) (hwf : WF ht)
    (hfind : (bucketAt ht (bucketIdx ht.num_buckets k)).find?
      (fun x => x.key == k) = some e)
    (h : MemOK ht) : MemOK (updatedTable ht k v e) := by
  have hidx : bucketIdx ht.num_buckets k < ht.buckets.length := by
    rw [hwf.2]; exact Nat.mod_lt _ hwf.1
  unfold MemOK at *
  rw [updatedTable_memory, updatedTable_num_buckets, updatedTable_buckets]
  have hset := entriesMem_set
    (replaceValue k v (bucketAt ht (bucketIdx ht.num_buckets k))) hidx
  have hrep := chain_sum_replace hfind v
  have hle : entry_memory e
      ≤ ((bucketAt ht (bucketIdx ht.num_buckets k)).map entry_memory).sum :=
    List.single_le_sum (by simp) _
      (List.mem_map_of_mem _ (List.mem_of_find?_eq_some hfind))
  have hcle := @chain_sum_le_entriesMem ht.buckets _ hidx
  simp only [bucketAt_eq] at hset hrep hle ⊢
  omega

theorem insertedTable_MemOK {ht : HashTable} {k : Bytes} (v : Bytes)
    (hwf : WF ht) (h : MemOK ht) : MemOK (insertedTable ht k v) := by
  have hidx : bucketIdx ht.num_buckets k < ht.buckets.length := by
    rw [hwf.2]; exact Nat.mod_lt _ hwf.1
  unfold MemOK at *
  rw [insertedTable_memory, insertedTable_num_buckets, insertedTable_buckets]
  have hset := entriesMem_set
    ((⟨k, v⟩ : HashEntry) :: bucketAt ht (bucketIdx ht.num_buckets k)) hidx
  simp only [List.map_cons, List.sum_cons, bucketAt_eq] at hset ⊢
  omega

/-! ## ht_delete equations and preservation -/

theorem ht_delete_found {ht : HashTable} {k : Bytes} {e : HashEntry}
    (hfind : (bucketAt ht (bucketIdx ht.num_buckets k)).find?
      (fun x => x.key == k) = some e) :
    ht_delete ht k = (0, deletedTable ht k e) := by
  simp only [ht_delete, deletedTable]
  rw [hfind]

theorem ht_delete_none {ht : HashTable} {k : Bytes}
    (hfind : (bucketAt ht (bucketIdx ht.num_buckets k)).find?
      (fun x => x.key == k) = none) :
    ht_delete ht k = (-1, ht) := by
  simp only [ht_delete]
  rw [hfind]

theorem deletedTable_buckets (ht : HashTable) (k : Bytes) (e : HashEntry) :
    (deletedTable ht k e).buckets
      = ht.buckets.set (bucketIdx ht.num_buckets k)
          (removeKey k (bucketAt ht (bucketIdx ht.num_buckets k))) := rfl

theorem deletedTable_num_buckets (ht : HashTable) (k : Bytes)
    (e : HashEntry) : (deletedTable ht k e).num_buckets = ht.num_buckets := rfl

theorem deletedTable_num_entries (ht : HashTable) (k : Bytes)
    (e : HashEntry) :
    (deletedTable ht k e).num_entries = ht.num_entries - 1 := rfl

theorem deletedTable_memory (ht : HashTable) (k : Bytes) (e : HashEntry) :
    (deletedTable ht k e).memory_used
      = ht.memory_used - entry_memory e := rfl

theorem mem_removeKey {k : Bytes} {c : List HashEntry} {x : HashEntry}
    (hx : x ∈ removeKey k c) : x ∈ c := by
  induction c with
  | nil => simp [removeKey] at hx
  | cons y ys ih =>
    by_cases hy : y.key = k
    · simp only [removeKey, if_pos hy] at hx
      exact List.mem_cons_of_mem _ hx
    · simp only [removeKey, if_neg hy] at hx
      rcases List.mem_cons.1 hx with rfl | hx'
      · exact List.mem_cons_self _ _
      · exact List.mem_cons_of_mem _ (ih hx')

theorem removeKey_sublist (k : Bytes) (c : List HashEntry) :
    (removeKey k c).Sublist c := by
  induction c with
  | nil => simp [removeKey]
  | cons y ys ih =>
    by_cases hy : y.key = k
    · simp only [removeKey, if_pos hy]
      exact (List.sublist_cons_self y ys)
    · simp only [removeKey, if_neg hy]
      exact ih.cons₂ y

theorem deletedTable_Inv {ht : HashTable} {k : Bytes} (e : HashEntry)
    (hInv : Inv ht) : Inv (deletedTable ht k e) := by
  obtain ⟨⟨hpos, hlen⟩, hp, hnd⟩ := hInv
  have hidx : bucketIdx ht.num_buckets k < ht.buckets.length := by
    rw [hlen]; exact Nat.mod_lt _ hpos
  refine ⟨⟨hpos, ?_⟩, ?_, ?_⟩
  · rw [deletedTable_buckets, List.length_set, hlen]
    rfl
  · intro i hi x hx
    rw [deletedTable_buckets, List.length_set] at hi
    rw [show bucketAt (deletedTable ht k e) i
        = ((deletedTable ht k e).buckets).getD i [] from rfl,
      deletedTable_buckets] at hx
    rw [show (deletedTable ht k e).num_buckets = ht.num_buckets from rfl]
    by_cases hsame : bucketIdx ht.num_buckets k = i
    · rw [← hsame] at hx ⊢
      rw [getD_set_self _ _ _ _ hidx] at hx
      exact hp _ (by rw [← hsame] at hi; exact hi) x
        (mem_removeKey hx)
    · rw [getD_set_ne _ _ _ _ _ hsame] at hx
      exact hp i hi x hx
  · obtain ⟨pre, suf, h1, h2⟩ :=
      flatten_set_decomp ht.buckets (bucketIdx ht.num_buckets k) hidx
    unfold allKeys at hnd ⊢
    rw [deletedTable_buckets, h2]
    rw [h1] at hnd
    apply List.Nodup.sublist _ hnd
    apply List.Sublist.map
    apply List.Sublist.append _ (List.Sublist.refl suf)
    apply List.Sublist.append (List.Sublist.refl pre)
    rw [bucketAt_eq]
    exact removeKey_sublist k _

theorem deletedTable_CountOK {ht : HashTable} {k : Bytes} {e : HashEntry}
    (hwf : WF ht)
    (hfind : (bucketAt ht (bucketIdx ht.num_buckets k)).find?
      (fun x => x.key == k) = some e)
    (h : CountOK ht) : CountOK (deletedTable ht k e) := by
  have hidx : bucketIdx ht.num_buckets k < ht.buckets.length := by
    rw [hwf.2]; exact Nat.mod_lt _ hwf.1
  unfold CountOK at *
  rw [deletedTable_num_entries, deletedTable_buckets]
  have hl := flatten_length_set
    (removeKey k (bucketAt ht (bucketIdx ht.num_buckets k))) hidx
  have hrem := chain_length_remove hfind
  have hne : 1 ≤ (bucketAt ht (bucketIdx ht.num_buckets k)).length :=
    List.length_pos.2 (by
      intro hnil
      rw [hnil] at hfind
      simp at hfind)
  simp only [bucketAt_eq] at hl hrem hne ⊢
  omega

theorem deletedTable_MemOK {ht : HashTable} {k : Bytes} {e : HashEntry}
    (hwf : WF ht)
    (hfind : (bucketAt ht (bucketIdx ht.num_buckets k)).find?
      (fun x => x.key == k) = some e)
    (h : MemOK ht) : MemOK (deletedTable ht k e) := by
  have hidx : bucketIdx ht.num_buckets k < ht.buckets.length := by
    rw [hwf.2]; exact Nat.mod_lt _ hwf.1
  unfold MemOK at *
  rw [deletedTable_memory, deletedTable_num_buckets, deletedTable_buckets]
  have hset := entriesMem_set
    (removeKey k (bucketAt ht (bucketIdx ht.num_buckets k))) hidx
  have hrem := chain_sum_remove hfind
  have hle : entry_memory e
      ≤ ((bucketAt ht (bucketIdx ht.num_buckets k)).map entry_memory).sum :=
    List.single_le_sum (by simp) _
      (List.mem_map_of_mem _ (List.mem_of_find?_eq_some hfind))
  have hcle := @chain_sum_le_entriesMem ht.buckets _ hidx
  simp only [bucketAt_eq] at hset hrem hle ⊢
  omega


/-! ## Aggregated preservation through ht_set_inner -/

theorem updatedTable_WF {ht : HashTable} {k : Bytes} (v : Bytes)
    (e : HashEntry) (hwf : WF ht) : WF (updatedTable ht k v e) :=
  ⟨hwf.1, by rw [updatedTable_buckets, List.length_set, hwf.2]; rfl⟩

theorem insertedTable_WF {ht : HashTable} {k : Bytes} (v : Bytes)
    (hwf : WF ht) : WF (insertedTable ht k v) :=
  ⟨hwf.1, by rw [insertedTable_buckets, List.length_set, hwf.2]; rfl⟩

theorem deletedTable_WF {ht : HashTable} {k : Bytes} (e : HashEntry)
    (hwf : WF ht) : WF (deletedTable ht k e) :=
  ⟨hwf.1, by rw [deletedTable_buckets, List.length_set, hwf.2]; rfl⟩

theorem ht_set_inner_Inv {ht : HashTable} (hInv : Inv ht) (eok : Bool)
    (k v : Bytes) : Inv (ht_set_inner eok ht k v).2 := by
  cases eok with
  | false => rw [ht_set_inner_entry_fail]; exact hInv
  | true =>
    cases hfind : (bucketAt ht (bucketIdx ht.num_buckets k)).find?
        (fun x => x.key == k) with
    | some e => rw [ht_set_inner_update_ok hfind]; exact updatedTable_Inv v e hInv
    | none => rw [ht_set_inner_insert_ok hfind]; exact insertedTable_Inv v hInv hfind

theorem ht_set_inner_WF {ht : HashTable} (hwf : WF ht) (eok : Bool)
    (k v : Bytes) : WF (ht_set_inner eok ht k v).2 := by
  cases eok with
  | false => rw [ht_set_inner_entry_fail]; exact hwf
  | true =>
    cases hfind : (bucketAt ht (bucketIdx ht.num_buckets k)).find?
        (fun x => x.key == k) with
    | some e => rw [ht_set_inner_update_ok hfind]; exact updatedTable_WF v e hwf
    | none => rw [ht_set_inner_insert_ok hfind]; exact insertedTable_WF v hwf

theorem ht_set_inner_CountOK {ht : HashTable} (hwf : WF ht)
    (hc : CountOK ht) (eok : Bool) (k v : Bytes) :
    CountOK (ht_set_inner eok ht k v).2 := by
  have hidx : bucketIdx ht.num_buckets k < ht.buckets.length := by
    rw [hwf.2]; exact Nat.mod_lt _ hwf.1
  cases eok with
  | false => rw [ht_set_inner_entry_fail]; exact hc
  | true =>
    cases hfind : (bucketAt ht (bucketIdx ht.num_buckets k)).find?
        (fun x => x.key == k) with
    | some e =>
      rw [ht_set_inner_update_ok hfind]; exact updatedTable_CountOK v e hidx hc
    | none =>
      rw [ht_set_inner_insert_ok hfind]; exact insertedTable_CountOK v hidx hc

theorem ht_set_inner_MemOK {ht : HashTable} (hwf : WF ht)
    (hm : MemOK ht) (eok : Bool) (k v : Bytes) :
    MemOK (ht_set_inner eok ht k v).2 := by
  cases eok with
  | false => rw [ht_set_inner_entry_fail]; exact hm
  | true =>
    cases hfind : (bucketAt ht (bucketIdx ht.num_buckets k)).find?
        (fun x => x.key == k) with
    | some e =>
      rw [ht_set_inner_update_ok hfind]; exact updatedTable_MemOK v hwf hfind hm
    | none =>
      rw [ht_set_inner_insert_ok hfind]; exact insertedTable_MemOK v hwf hm

/-! ## The table ht_set actually inserts into -/

theorem ht_set_eq (a : Alloc) (ht : HashTable) (k v : Bytes) :
    ht_set a ht k v
      = if k.length > MAX_KEY_SIZE ∨ v.length > MAX_VALUE_SIZE then (-1, ht)
        else ht_set_inner a.entryOk (preTable a ht) k v := by
  simp only [ht_set, preTable]

theorem preTable_Inv {ht : HashTable} (hInv : Inv ht) (a : Alloc) :
    Inv (preTable a ht) := by
  unfold preTable
  split
  · split
    · exact resize_Inv hInv
    · exact hInv
  · exact hInv

theorem preTable_WF {ht : HashTable} (hwf : WF ht) (a : Alloc) :
    WF (preTable a ht) := by
  unfold preTable
  split
  · split
    · exact resize_WF hwf
    · exact hwf
  · exact hwf

theorem preTable_CountOK {ht : HashTable} (hwf : WF ht) (hc : CountOK ht)
    (a : Alloc) : CountOK (preTable a ht) := by
  unfold preTable
  split
  · split
    · exact resize_CountOK hwf hc
    · exact hc
  · exact hc

theorem preTable_MemOK {ht : HashTable} (hwf : WF ht) (hm : MemOK ht)
    (a : Alloc) : MemOK (preTable a ht) := by
  unfold preTable
  split
  · split
    · exact resize_MemOK hwf hm
    · exact hm
  · exact hm

theorem preTable_get {ht : HashTable} (hInv : Inv ht) (a : Alloc)
    (k : Bytes) : ht_get (preTable a ht) k = ht_get ht k := by
  unfold preTable
  split
  · split
    · exact resize_get hInv k
    · rfl
  · rfl

theorem preTable_num_entries (a : Alloc) (ht : HashTable) :
    (preTable a ht).num_entries = ht.num_entries := by
  unfold preTable
  split
  · split
    · exact resize_num_entries ht
    · rfl
  · rfl

/-! ## Top-level ht_set lemmas -/

theorem ht_set_Inv {ht : HashTable} (hInv : Inv ht) (a : Alloc)
    (k v : Bytes) : Inv (ht_set a ht k v).2 := by
  rw [ht_set_eq]
  split
  · exact hInv
  · exact ht_set_inner_Inv (preTable_Inv hInv a) _ k v

theorem ht_set_WF {ht : HashTable} (hwf : WF ht) (a : Alloc)
    (k v : Bytes) : WF (ht_set a ht k v).2 := by
  rw [ht_set_eq]
  split
  · exact hwf
  · exact ht_set_inner_WF (preTable_WF hwf a) _ k v

theorem ht_set_CountOK {ht : HashTable} (hwf : WF ht) (hc : CountOK ht)
    (a : Alloc) (k v : Bytes) : CountOK (ht_set a ht k v).2 := by
  rw [ht_set_eq]
  split
  · exact hc
  · exact ht_set_inner_CountOK (preTable_WF hwf a) (preTable_CountOK hwf hc a) _ k v

theorem ht_set_MemOK {ht : HashTable} (hwf : WF ht) (hm : MemOK ht)
    (a : Alloc) (k v : Bytes) : MemOK (ht_set a ht k v).2 := by
  rw [ht_set_eq]
  split
  · exact hm
  · exact ht_set_inner_MemOK (preTable_WF hwf a) (preTable_MemOK hwf hm a) _ k v

theorem ht_set_code_zero {ht : HashTable} {k v : Bytes}
    (hk : k.length ≤ MAX_KEY_SIZE) (hv : v.length ≤ MAX_VALUE_SIZE) :
    (ht_set allocAll ht k v).1 = 0 := by
  rw [ht_set_eq, if_neg (by omega)]
  exact ht_set_inner_code _ k v

theorem ht_set_get_same {ht : HashTable} (hwf : WF ht) {k v : Bytes}
    (hk : k.length ≤ MAX_KEY_SIZE) (hv : v.length ≤ MAX_VALUE_SIZE) :
    ht_get (ht_set allocAll ht k v).2 k = some v := by
  rw [ht_set_eq, if_neg (by omega)]
  exact ht_set_inner_get_same (preTable_WF hwf allocAll) k v

theorem ht_set_get_other {ht : HashTable} (hInv : Inv ht) {k k' : Bytes}
    (v : Bytes) (hne : k' ≠ k) :
    ht_get (ht_set allocAll ht k v).2 k' = ht_get ht k' := by
  rw [ht_set_eq]
  split
  · rfl
  · show ht_get (ht_set_inner true (preTable allocAll ht) k v).2 k'
        = ht_get ht k'
    rw [ht_set_inner_get_other (preTable_WF hInv.1 allocAll) v hne]
    exact preTable_get hInv allocAll k'


/-! ## Entry-count deltas -/

theorem ht_get_isSome_find (ht : HashTable) (k : Bytes) :
    (ht_get ht k).isSome
      = ((bucketAt ht (bucketIdx ht.num_buckets k)).find?
          (fun x => x.key == k)).isSome := by
  unfold ht_get
  cases (bucketAt ht (bucketIdx ht.num_buckets k)).find?
      (fun x => x.key == k) <;> rfl

theorem ht_set_num_entries_present {ht : HashTable} (hInv : Inv ht)
    {k : Bytes} (hsome : (ht_get ht k).isSome) (a : Alloc) (v : Bytes) :
    (ht_set a ht k v).2.num_entries = ht.num_entries := by
  rw [ht_set_eq]
  split
  · rfl
  · have hpre := preTable_num_entries a ht
    have hsome1 : (ht_get (preTable a ht) k).isSome := by
      rw [preTable_get hInv a k]; exact hsome
    rw [ht_get_isSome_find] at hsome1
    cases heok : a.entryOk with
    | false => rw [ht_set_inner_entry_fail]; exact hpre
    | true =>
      cases hfind : (bucketAt (preTable a ht)
          (bucketIdx (preTable a ht).num_buckets k)).find?
          (fun x => x.key == k) with
      | some e =>
        rw [ht_set_inner_update_ok hfind, ← hpre]
        rfl
      | none => rw [hfind] at hsome1; simp at hsome1

theorem ht_set_num_entries_absent {ht : HashTable} (hInv : Inv ht)
    {k v : Bytes} (hk : k.length ≤ MAX_KEY_SIZE)
    (hv : v.length ≤ MAX_VALUE_SIZE) (hnone : ht_get ht k = none) :
    (ht_set allocAll ht k v).2.num_entries = ht.num_entries + 1 := by
  rw [ht_set_eq, if_neg (by omega)]
  have hnone1 : ht_get (preTable allocAll ht) k = none := by
    rw [preTable_get hInv]; exact hnone
  have hfind : (bucketAt (preTable allocAll ht)
      (bucketIdx (preTable allocAll ht).num_buckets k)).find?
      (fun x => x.key == k) = none := by
    unfold ht_get at hnone1
    exact Option.map_eq_none'.1 hnone1
  show (ht_set_inner true (preTable allocAll ht) k v).2.num_entries
      = ht.num_entries + 1
  rw [ht_set_inner_insert_ok hfind, ← preTable_num_entries allocAll ht]
  rfl

/-! ## Bucket-count evolution -/

theorem ht_set_num_buckets_eq (a : Alloc) (ht : HashTable) (k v : Bytes) :
    (ht_set a ht k v).2.num_buckets
      = if k.length > MAX_KEY_SIZE ∨ v.length > MAX_VALUE_SIZE then
          ht.num_buckets
        else if 3 * ht.num_buckets < 4 * ht.num_entries ∧ a.resizeOk = true
        then ht.num_buckets * 2
        else ht.num_buckets := by
  rw [ht_set_eq]
  by_cases hsz : k.length > MAX_KEY_SIZE ∨ v.length > MAX_VALUE_SIZE
  · rw [if_pos hsz, if_pos hsz]
  · rw [if_neg hsz, if_neg hsz, ht_set_inner_num_buckets]
    unfold preTable
    by_cases hl : 3 * ht.num_buckets < 4 * ht.num_entries
    · rw [if_pos hl]
      cases hr : a.resizeOk with
      | true => rw [if_pos rfl, resize_num_buckets, if_pos ⟨hl, rfl⟩]
      | false =>
        rw [if_neg (by simp), if_neg (by simp)]
    · rw [if_neg hl, if_neg (by tauto)]

theorem ht_set_num_buckets_or (a : Alloc) (ht : HashTable) (k v : Bytes) :
    (ht_set a ht k v).2.num_buckets = ht.num_buckets
      ∨ (ht_set a ht k v).2.num_buckets = ht.num_buckets * 2 := by
  rw [ht_set_num_buckets_eq]
  split
  · exact Or.inl rfl
  · split
    · exact Or.inr rfl
    · exact Or.inl rfl

theorem ht_delete_num_buckets (ht : HashTable) (k : Bytes) :
    (ht_delete ht k).2.num_buckets = ht.num_buckets := by
  cases hfind : (bucketAt ht (bucketIdx ht.num_buckets k)).find?
      (fun x => x.key == k) with
  | some e => rw [ht_delete_found hfind]; rfl
  | none => rw [ht_delete_none hfind]

/-! ## ht_create establishes all invariants -/

theorem ht_create_num_buckets (n : Nat) :
    (ht_create n).num_buckets
      = if n > 0 then n else INITIAL_BUCKETS := rfl

theorem ht_create_buckets (n : Nat) :
    (ht_create n).buckets
      = List.replicate (if n > 0 then n else INITIAL_BUCKETS) [] := rfl

theorem ht_create_num_entries (n : Nat) : (ht_create n).num_entries = 0 :=
  rfl

theorem ht_create_memory (n : Nat) :
    (ht_create n).memory_used
      = sizeof_HashTable
          + (if n > 0 then n else INITIAL_BUCKETS) * sizeof_ptr := rfl

theorem ht_create_WF (n : Nat) : WF (ht_create n) := by
  constructor
  · rw [ht_create_num_buckets]
    split
    · omega
    · unfold INITIAL_BUCKETS; omega
  · rw [ht_create_buckets, List.length_replicate, ht_create_num_buckets]

theorem ht_create_Inv (n : Nat) : Inv (ht_create n) := by
  refine ⟨ht_create_WF n, ?_, ?_⟩
  · intro i hi x hx
    rw [show bucketAt (ht_create n) i
        = ((ht_create n).buckets).getD i [] from rfl,
      ht_create_buckets, getD_replicate_nil] at hx
    simp at hx
  · unfold allKeys
    rw [ht_create_buckets, flatten_replicate_nil]
    exact List.nodup_nil

theorem ht_create_CountOK (n : Nat) : CountOK (ht_create n) := by
  unfold CountOK
  rw [ht_create_num_entries, ht_create_buckets, flatten_replicate_nil]
  rfl

theorem ht_create_MemOK (n : Nat) : MemOK (ht_create n) := by
  unfold MemOK entriesMem
  rw [ht_create_memory, ht_create_num_buckets, ht_create_buckets,
    flatten_replicate_nil]
  rfl

/-! ## Top-level ht_delete lemmas -/

theorem ht_delete_Inv {ht : HashTable} (hInv : Inv ht) (k : Bytes) :
    Inv (ht_delete ht k).2 := by
  cases hfind : (bucketAt ht (bucketIdx ht.num_buckets k)).find?
      (fun x => x.key == k) with
  | some e => rw [ht_delete_found hfind]; exact deletedTable_Inv e hInv
  | none => rw [ht_delete_none hfind]; exact hInv

theorem ht_delete_WF {ht : HashTable} (hwf : WF ht) (k : Bytes) :
    WF (ht_delete ht k).2 := by
  cases hfind : (bucketAt ht (bucketIdx ht.num_buckets k)).find?
      (fun x => x.key == k) with
  | some e => rw [ht_delete_found hfind]; exact deletedTable_WF e hwf
  | none => rw [ht_delete_none hfind]; exact hwf

theorem ht_delete_CountOK {ht : HashTable} (hwf : WF ht) (hc : CountOK ht)
    (k : Bytes) : CountOK (ht_delete ht k).2 := by
  cases hfind : (bucketAt ht (bucketIdx ht.num_buckets k)).find?
      (fun x => x.key == k) with
  | some e =>
    rw [ht_delete_found hfind]; exact deletedTable_CountOK hwf hfind hc
  | none => rw [ht_delete_none hfind]; exact hc

theorem ht_delete_MemOK {ht : HashTable} (hwf : WF ht) (hm : MemOK ht)
    (k : Bytes) : MemOK (ht_delete ht k).2 := by
  cases hfind : (bucketAt ht (bucketIdx ht.num_buckets k)).find?
      (fun x => x.key == k) with
  | some e =>
    rw [ht_delete_found hfind]; exact deletedTable_MemOK hwf hfind hm
  | none => rw [ht_delete_none hfind]; exact hm

/-! ## Preservation along whole operation sequences -/

theorem runOpsFrom_all {ht : HashTable}
    (h : Inv ht ∧ CountOK ht ∧ MemOK ht) (ops : List Op) :
    Inv (runOpsFrom ht ops) ∧ CountOK (runOpsFrom ht ops)
      ∧ MemOK (runOpsFrom ht ops) := by
  induction ops generalizing ht with
  | nil => exact h
  | cons op rest ih =>
    obtain ⟨hInv, hc, hm⟩ := h
    apply ih
    cases op with
    | set a k v =>
      exact ⟨ht_set_Inv hInv a k v, ht_set_CountOK hInv.1 hc a k v,
        ht_set_MemOK hInv.1 hm a k v⟩
    | del k =>
      exact ⟨ht_delete_Inv hInv k, ht_delete_CountOK hInv.1 hc k,
        ht_delete_MemOK hInv.1 hm k⟩

theorem runOps_all (ops : List Op) :
    Inv (runOps ops) ∧ CountOK (runOps ops) ∧ MemOK (runOps ops) :=
  runOpsFrom_all
    ⟨ht_create_Inv INITIAL_BUCKETS, ht_create_CountOK INITIAL_BUCKETS,
      ht_create_MemOK INITIAL_BUCKETS⟩ ops


/-! ## Bucket count along operation sequences -/

theorem runOpsFrom_cons (ht : HashTable) (op : Op) (rest : List Op) :
    runOpsFrom ht (op :: rest) = runOpsFrom (opResult ht op).2 rest := rfl

theorem runOpsFrom_num_buckets (ops : List Op) (ht : HashTable) :
    ∃ m : Nat, (runOpsFrom ht ops).num_buckets = ht.num_buckets * 2 ^ m := by
  induction ops generalizing ht with
  | nil => exact ⟨0, by simp [runOpsFrom]⟩
  | cons op rest ih =>
    rw [runOpsFrom_cons]
    obtain ⟨m, hm⟩ := ih (opResult ht op).2
    cases op with
    | set a k v =>
      rcases ht_set_num_buckets_or a ht k v with h | h
      · exact ⟨m, by rw [hm]; rw [show (opResult ht (Op.set a k v)).2
          = (ht_set a ht k v).2 from rfl, h]⟩
      · refine ⟨m + 1, ?_⟩
        rw [hm, show (opResult ht (Op.set a k v)).2
          = (ht_set a ht k v).2 from rfl, h]
        ring
    | del k =>
      exact ⟨m, by rw [hm, show (opResult ht (Op.del k)).2
        = (ht_delete ht k).2 from rfl, ht_delete_num_buckets]⟩

/-! ## Fresh lookups on a new table -/

theorem ht_create_get (n : Nat) (k : Bytes) : ht_get (ht_create n) k = none := by
  unfold ht_get
  rw [show bucketAt (ht_create n) (bucketIdx (ht_create n).num_buckets k)
      = ((ht_create n).buckets).getD
          (bucketIdx (ht_create n).num_buckets k) [] from rfl,
    ht_create_buckets, getD_replicate_nil]
  rfl

theorem ht_set_num_buckets_allocAll (ht : HashTable) {k v : Bytes}
    (hk : k.length ≤ MAX_KEY_SIZE) (hv : v.length ≤ MAX_VALUE_SIZE) :
    (ht_set allocAll ht k v).2.num_buckets
      = if 3 * ht.num_buckets < 4 * ht.num_entries then ht.num_buckets * 2
        else ht.num_buckets := by
  rw [ht_set_num_buckets_eq, if_neg (by omega)]
  by_cases hl : 3 * ht.num_buckets < 4 * ht.num_entries
  · rw [if_pos ⟨hl, rfl⟩, if_pos hl]
  · rw [if_neg (by tauto), if_neg hl]

/-! ## The distinct-key insert run (fresh table, all allocations succeed) -/

theorem runInserts_append (kvs : List (Bytes × Bytes)) (kv : Bytes × Bytes) :
    runInserts (kvs ++ [kv])
      = (ht_set allocAll (runInserts kvs) kv.1 kv.2).2 := by
  unfold runInserts
  rw [List.foldl_append]
  rfl

theorem runInserts_spec (kvs : List (Bytes × Bytes))
    (hnd : (kvs.map Prod.fst).Nodup)
    (hsz : ∀ kv ∈ kvs, kv.1.length ≤ MAX_KEY_SIZE
      ∧ kv.2.length ≤ MAX_VALUE_SIZE)
    (hlen : kvs.length ≤ 96) :
    Inv (runInserts kvs)
    ∧ (runInserts kvs).num_entries = kvs.length
    ∧ (runInserts kvs).num_buckets = (if kvs.length ≤ 49 then 64 else 128)
    ∧ (∀ kv ∈ kvs, ht_get (runInserts kvs) kv.1 = some kv.2)
    ∧ (∀ k', k' ∉ kvs.map Prod.fst → ht_get (runInserts kvs) k' = none) := by
  induction kvs using List.reverseRecOn with
  | nil =>
    refine ⟨ht_create_Inv _, rfl, by decide, by simp, fun k' _ => ?_⟩
    exact ht_create_get _ k'
  | append_singleton kvs' kv ih =>
    have hnd' : (kvs'.map Prod.fst).Nodup := by
      rw [List.map_append] at hnd
      exact (List.nodup_append.1 hnd).1
    have hknew : kv.1 ∉ kvs'.map Prod.fst := by
      rw [List.map_append] at hnd
      intro hmem
      exact (List.nodup_append.1 hnd).2.2 hmem (by simp)
    have hsz' : ∀ p ∈ kvs', p.1.length ≤ MAX_KEY_SIZE
        ∧ p.2.length ≤ MAX_VALUE_SIZE :=
      fun p hp => hsz p (by simp [hp])
    have hszkv := hsz kv (by simp)
    have hlen' : kvs'.length ≤ 96 := by
      rw [List.length_append] at hlen; omega
    obtain ⟨hInv, hcount, hbuckets, hget, hnone⟩ := ih hnd' hsz' hlen'
    rw [runInserts_append]
    have hgetnew : ht_get (runInserts kvs') kv.1 = none := hnone kv.1 hknew
    have hInv'' := ht_set_Inv hInv allocAll kv.1 kv.2
    have hcount'' := ht_set_num_entries_absent hInv hszkv.1 hszkv.2 hgetnew
    refine ⟨hInv'', ?_, ?_, ?_, ?_⟩
    · rw [hcount'', hcount, List.length_append]
      rfl
    · rw [ht_set_num_buckets_allocAll _ hszkv.1 hszkv.2, hbuckets, hcount,
        List.length_append]
      by_cases h49 : kvs'.length ≤ 49
      · rw [if_pos h49]
        by_cases h48 : kvs'.length ≤ 48
        · rw [if_neg (by omega), if_pos (by simp; omega)]
        · have : kvs'.length = 49 := by omega
          rw [this]
          norm_num
      · rw [if_neg h49, if_neg (by omega), if_neg (by simp; omega)]
    · intro p hp
      rcases List.mem_append.1 hp with hp' | hp'
      · have hpkey : p.1 ≠ kv.1 := by
          intro heq
          exact hknew (heq ▸ List.mem_map_of_mem Prod.fst hp')
        rw [ht_set_get_other hInv kv.2 hpkey]
        exact hget p hp'
      · have : p = kv := by simpa using hp'
        subst this
        exact ht_set_get_same hInv.1 hszkv.1 hszkv.2
    · intro k' hk'
      rw [List.map_append] at hk'
      have hk1 : k' ∉ kvs'.map Prod.fst := fun h => hk' (by simp [h])
      have hk2 : k' ≠ kv.1 := fun h => hk' (by simp [h])
      rw [ht_set_get_other hInv kv.2 hk2]
      exact hnone k' hk1

/-! ## Parsing lemmas for the command interpreter -/

theorem dropWhile_cons_of_neg {α : Type} {p : α → Bool} {a : α}
    (l : List α) (h : p a = false) : (a :: l).dropWhile p = a :: l := by
  rw [List.dropWhile_cons, h]
  simp

theorem trim_GET_line {k : Bytes} (hne : k ≠ [])
    (hws : ∀ b ∈ k, isspaceByte b = false) :
    trim_whitespace (bytes "GET " ++ k) = bytes "GET " ++ k := by
  unfold trim_whitespace
  have h1 : (bytes "GET " ++ k).dropWhile isspaceByte
      = bytes "GET " ++ k := by
    show ((71 : Nat) :: ([69, 84, 32] ++ k)).dropWhile isspaceByte = _
    exact dropWhile_cons_of_neg _ (by decide)
  rw [h1]
  obtain ⟨b, t, hbt⟩ : ∃ b t, k.reverse = b :: t := by
    cases hkr : k.reverse with
    | nil =>
      have : k = [] := by simpa using congrArg List.reverse hkr
      exact absurd this hne
    | cons b t => exact ⟨b, t, rfl⟩
  have hb : isspaceByte b = false := by
    apply hws
    have : b ∈ k.reverse := by rw [hbt]; exact List.mem_cons_self _ _
    simpa using this
  have h2 : (bytes "GET " ++ k).reverse
      = b :: (t ++ (bytes "GET ").reverse) := by
    rw [List.reverse_append, hbt]
    rfl
  rw [h2, dropWhile_cons_of_neg _ hb, ← h2, List.reverse_reverse]

theorem tokenizeAux_no_sep {k : Bytes}
    (hsep : ∀ b ∈ k, isTokSep b = false) (cur : Bytes) :
    tokenizeAux k cur
      = if cur = [] ∧ k = [] then [] else [cur.reverse ++ k] := by
  induction k generalizing cur with
  | nil =>
    by_cases hc : cur = []
    · subst hc; simp [tokenizeAux]
    · simp [tokenizeAux, hc, List.isEmpty_iff]
  | cons b t ih =>
    have hb : isTokSep b = false := hsep b (List.mem_cons_self _ _)
    have ht' : ∀ x ∈ t, isTokSep x = false :=
      fun x hx => hsep x (List.mem_cons_of_mem _ hx)
    show (if isTokSep b then
        (if cur.isEmpty then tokenizeAux t []
          else cur.reverse :: tokenizeAux t [])
        else tokenizeAux t (b :: cur)) = _
    rw [hb]
    simp only [Bool.false_eq_true, if_false]
    rw [ih ht' (b :: cur)]
    simp [List.append_assoc]

theorem isTokSep_false_of_isspace {b : Nat} (h : isspaceByte b = false) :
    isTokSep b = false := by
  unfold isspaceByte at h
  unfold isTokSep
  simp only [Bool.or_eq_false_iff] at h ⊢
  refine ⟨h.1, ?_⟩
  have h2 := h.2
  simp only [Bool.and_eq_false_iff] at h2
  simp only [beq_eq_false_iff_ne]
  rcases h2 with h2 | h2 <;> [skip; skip] <;>
    · simp only [decide_eq_false_iff_not, not_le] at h2
      omega

theorem parse_GET_line {k : Bytes} (hne : k ≠ [])
    (hws : ∀ b ∈ k, isspaceByte b = false) :
    parse_command (bytes "GET " ++ k) = [bytes "GET", k] := by
  have hsep : ∀ b ∈ k, isTokSep b = false :=
    fun b hb => isTokSep_false_of_isspace (hws b hb)
  have htok0 : tokenizeAux (bytes "GET " ++ k) []
      = bytes "GET" :: tokenizeAux k [] := rfl
  unfold parse_command
  rw [htok0, tokenizeAux_no_sep hsep []]
  rw [if_neg (by simp [hne])]
  rfl

/-- The GET dispatch path: the reply is the stored value, or the `NULL`
sentinel when the key is absent. -/
theorem process_command_GET {ht : HashTable} {k : Bytes} (hne : k ≠ [])
    (hws : ∀ b ∈ k, isspaceByte b = false) :
    process_command ht (bytes "GET " ++ k)
      = ((ht_get ht k).getD (bytes "NULL"), ht) := by
  simp only [process_command]
  rw [trim_GET_line hne hws, parse_GET_line hne hws]
  rw [show (bytes "GET " ++ k).isEmpty = false from rfl]
  rw [show ([bytes "GET", k] : List Bytes).isEmpty = false from rfl]
  simp only [Bool.false_eq_true, if_false]
  simp only [dispatch]
  rw [show List.map toupperByte (([bytes "GET", k] : List Bytes).headD [])
      = bytes "GET" from rfl]
  rw [if_neg (by decide), if_pos rfl]
  rw [show ([bytes "GET", k] : List Bytes).length = 2 from rfl]
  rw [if_neg (by decide)]
  rw [show ([bytes "GET", k] : List Bytes).getD 1 [] = k from rfl]
  cases hv : ht_get ht k <;> rfl


/-! ## ht_delete return-code lemmas -/

theorem ht_delete_code_zero_num_entries {ht : HashTable} (hwf : WF ht)
    (hc : CountOK ht) {k : Bytes} (h : (ht_delete ht k).1 = 0) :
    (ht_delete ht k).2.num_entries + 1 = ht.num_entries := by
  cases hfind : (bucketAt ht (bucketIdx ht.num_buckets k)).find?
      (fun x => x.key == k) with
  | none =>
    rw [ht_delete_none hfind] at h
    simp at h
  | some e =>
    rw [ht_delete_found hfind]
    rw [show ((0 : Int), deletedTable ht k e).2 = deletedTable ht k e
        from rfl, deletedTable_num_entries]
    have hidx : bucketIdx ht.num_buckets k < ht.buckets.length := by
      rw [hwf.2]; exact Nat.mod_lt _ hwf.1
    have h1 : 1 ≤ (bucketAt ht (bucketIdx ht.num_buckets k)).length :=
      List.length_pos.2 (by
        intro hnil
        rw [hnil] at hfind
        simp at hfind)
    have h2 := @chain_length_le_flatten ht.buckets _ hidx
    unfold CountOK at hc
    rw [bucketAt_eq] at h1
    omega

theorem ht_delete_code_neg {ht : HashTable} {k : Bytes}
    (h : (ht_delete ht k).1 = -1) : (ht_delete ht k).2 = ht := by
  cases hfind : (bucketAt ht (bucketIdx ht.num_buckets k)).find?
      (fun x => x.key == k) with
  | none => rw [ht_delete_none hfind]
  | some e =>
    rw [ht_delete_found hfind] at h
    simp at h


/-! ## Claim theorems -/

/-- C1: after every store operation — create, set (insert or update, with
the resize it may perform), delete, and resize itself — `memory_used`
equals the fixed table overhead (`sizeof(HashTable)` plus one pointer-sized
slot per bucket) plus the sum over all live entries of each entry's
accounted size (`sizeof(HashEntry)` plus key length plus one plus value
length plus one); each operation maintains the figure incrementally. -/
theorem C1_memory_accounting :
    (∀ n, MemOK (ht_create n))
    ∧ (∀ ops, MemOK (runOps ops))
    ∧ (∀ a ht k v, WF ht → MemOK ht → MemOK (ht_set a ht k v).2)
    ∧ (∀ ht k, WF ht → MemOK ht → MemOK (ht_delete ht k).2)
    ∧ (∀ ht, WF ht → MemOK ht → MemOK (ht_resize ht)) :=
  ⟨ht_create_MemOK,
   fun ops => (runOps_all ops).2.2,
   fun a _ k v hwf hm => ht_set_MemOK hwf hm a k v,
   fun _ k hwf hm => ht_delete_MemOK hwf hm k,
   fun _ hwf hm => resize_MemOK hwf hm⟩

theorem C1_memory_accounting_witness :
    WF (ht_create 64) ∧ MemOK (ht_create 64)
    ∧ MemOK (ht_set allocAll (ht_create 64) [97] [98]).2 :=
  ⟨by decide, by decide,
   C1_memory_accounting.2.2.1 allocAll (ht_create 64) [97] [98]
     (by decide) (by decide)⟩

/-- C2 counterexample: inserting 49 distinct in-limit keys into a fresh
64-bucket store makes the load factor exceed 0.75 exactly when insert #49
completes (49/64 > 0.75 while 48/64 is not above it), yet the bucket count
after that insert is still 64: no doubling was triggered before the
crossing insert completed, contradicting the claimed "exactly one". -/
theorem C2_counterexample :
    ((testKVs 49).map Prod.fst).Nodup
    ∧ (∀ kv ∈ testKVs 49, kv.1.length ≤ MAX_KEY_SIZE
        ∧ kv.2.length ≤ MAX_VALUE_SIZE)
    ∧ (runInserts (testKVs 48)).num_entries = 48
    ∧ (runInserts (testKVs 49)).num_entries = 49
    ∧ ¬ 3 * 64 < 4 * 48
    ∧ 3 * 64 < 4 * 49
    ∧ (runInserts (testKVs 49)).num_buckets = 64 := by
  decide

/-- C2 (amended): the pre-insert load-factor check is strict
(`4*num_entries > 3*num_buckets`), so the doubling happens at the start of
the first insert after the crossing one.  For up to 96 distinct in-limit
inserts into a fresh store: the bucket count stays 64 through the first 49
inserts, the 50th insert (the first that begins with load factor strictly
above 0.75) performs the single doubling to 128, and after every insert
each previously inserted key is retrievable with its unchanged value. -/
theorem C2_resize_timing :
    (∀ ht k v, k.length ≤ MAX_KEY_SIZE → v.length ≤ MAX_VALUE_SIZE →
      (ht_set allocAll ht k v).2.num_buckets
        = if 3 * ht.num_buckets < 4 * ht.num_entries then
            ht.num_buckets * 2
          else ht.num_buckets)
    ∧ ∀ kvs : List (Bytes × Bytes), (kvs.map Prod.fst).Nodup →
      (∀ kv ∈ kvs, kv.1.length ≤ MAX_KEY_SIZE
        ∧ kv.2.length ≤ MAX_VALUE_SIZE) →
      kvs.length ≤ 96 →
      (runInserts kvs).num_entries = kvs.length
      ∧ (runInserts kvs).num_buckets = (if kvs.length ≤ 49 then 64 else 128)
      ∧ ∀ kv ∈ kvs, ht_get (runInserts kvs) kv.1 = some kv.2 := by
  refine ⟨fun ht k v hk hv => ht_set_num_buckets_allocAll ht hk hv,
    fun kvs hnd hsz hlen => ?_⟩
  obtain ⟨_, h2, h3, h4, _⟩ := runInserts_spec kvs hnd hsz hlen
  exact ⟨h2, h3, h4⟩

theorem C2_resize_timing_witness :
    (runInserts (testKVs 50)).num_entries = 50
    ∧ (runInserts (testKVs 50)).num_buckets = 128
    ∧ ∀ kv ∈ testKVs 50, ht_get (runInserts (testKVs 50)) kv.1 = some kv.2 := by
  have h := C2_resize_timing.2 (testKVs 50) (by decide) (by decide) (by decide)
  refine ⟨?_, ?_, h.2.2⟩
  · rw [h.1]; decide
  · rw [h.2.1]; decide

/-- C3: for every key of at most 256 bytes and value of at most 4096
bytes, a set on any well-formed store succeeds (returns 0) and an
immediately following get of that key returns exactly the stored bytes. -/
theorem C3_set_get_roundtrip :
    ∀ ht k v, WF ht → k.length ≤ MAX_KEY_SIZE → v.length ≤ MAX_VALUE_SIZE →
      (ht_set allocAll ht k v).1 = 0
      ∧ ht_get (ht_set allocAll ht k v).2 k = some v :=
  fun _ _ _ hwf hk hv => ⟨ht_set_code_zero hk hv, ht_set_get_same hwf hk hv⟩

theorem C3_set_get_roundtrip_witness :
    (ht_set allocAll (ht_create 64) [97, 98] [1, 2, 3]).1 = 0
    ∧ ht_get (ht_set allocAll (ht_create 64) [97, 98] [1, 2, 3]).2 [97, 98]
        = some [1, 2, 3] :=
  C3_set_get_roundtrip (ht_create 64) [97, 98] [1, 2, 3]
    (by decide) (by decide) (by decide)

/-- C4: a key of exactly 256 bytes (with an in-limit value) is accepted and
a key of 257 bytes is rejected; a value of exactly 4096 bytes (with an
in-limit key) is accepted and a value of 4097 bytes is rejected; every
rejection returns -1 and leaves the table literally unchanged. -/
theorem C4_size_boundaries :
    (∀ a ht k v, k.length = 257 → ht_set a ht k v = (-1, ht))
    ∧ (∀ a ht k v, v.length = 4097 → ht_set a ht k v = (-1, ht))
    ∧ (∀ ht k v, k.length = 256 → v.length ≤ 4096 →
        (ht_set allocAll ht k v).1 = 0)
    ∧ (∀ ht k v, k.length ≤ 256 → v.length = 4096 →
        (ht_set allocAll ht k v).1 = 0) := by
  refine ⟨fun a ht k v h => ?_, fun a ht k v h => ?_,
    fun ht k v hk hv => ?_, fun ht k v hk hv => ?_⟩
  · rw [ht_set_eq, if_pos (Or.inl (by rw [h]; decide))]
  · rw [ht_set_eq, if_pos (Or.inr (by rw [h]; decide))]
  · exact ht_set_code_zero (by rw [hk]; decide)
      (by unfold MAX_VALUE_SIZE; omega)
  · exact ht_set_code_zero (by unfold MAX_KEY_SIZE; omega)
      (by rw [hv]; decide)

theorem C4_size_boundaries_witness :
    (List.replicate 257 97 : Bytes).length = 257
    ∧ ht_set allocAll (ht_create 64) (List.replicate 257 97) [98]
        = (-1, ht_create 64)
    ∧ (List.replicate 4097 98 : Bytes).length = 4097
    ∧ ht_set allocAll (ht_create 64) [97] (List.replicate 4097 98)
        = (-1, ht_create 64)
    ∧ (List.replicate 256 97 : Bytes).length = 256
    ∧ (ht_set allocAll (ht_create 64) (List.replicate 256 97) [98]).1 = 0
    ∧ (List.replicate 4096 98 : Bytes).length = 4096
    ∧ (ht_set allocAll (ht_create 64) [97] (List.replicate 4096 98)).1 = 0 :=
  ⟨by rw [List.length_replicate],
   C4_size_boundaries.1 allocAll (ht_create 64) _ [98]
     (by rw [List.length_replicate]),
   by rw [List.length_replicate],
   C4_size_boundaries.2.1 allocAll (ht_create 64) [97] _
     (by rw [List.length_replicate]),
   by rw [List.length_replicate],
   C4_size_boundaries.2.2.1 (ht_create 64) _ [98]
     (by rw [List.length_replicate]) (by decide),
   by rw [List.length_replicate],
   C4_size_boundaries.2.2.2 (ht_create 64) [97] _ (by decide)
     (by rw [List.length_replicate])⟩

/-- C5: when the resize allocation fails, the set proceeds into the old
table exactly as it stood before the resize attempt (the whole operation
equals the insert-or-update pass on the unchanged table), the bucket count
is unchanged, and the set still succeeds when its own allocation does. -/
theorem C5_resize_failure_nonfatal :
    ∀ e ht k v, k.length ≤ MAX_KEY_SIZE → v.length ≤ MAX_VALUE_SIZE →
      ht_set ⟨false, e⟩ ht k v = ht_set_inner e ht k v
      ∧ (ht_set ⟨false, e⟩ ht k v).2.num_buckets = ht.num_buckets
      ∧ (ht_set ⟨false, true⟩ ht k v).1 = 0 := by
  intro e ht k v hk hv
  have key : ∀ e', ht_set ⟨false, e'⟩ ht k v = ht_set_inner e' ht k v := by
    intro e'
    rw [ht_set_eq, if_neg (by omega)]
    show ht_set_inner e' (preTable ⟨false, e'⟩ ht) k v = ht_set_inner e' ht k v
    unfold preTable
    simp
  refine ⟨key e, ?_, ?_⟩
  · rw [key e, ht_set_inner_num_buckets]
  · rw [key true]
    exact ht_set_inner_code ht k v

theorem C5_resize_failure_nonfatal_witness :
    ht_set ⟨false, true⟩ oneEntryTable [99] [100]
        = ht_set_inner true oneEntryTable [99] [100]
    ∧ (ht_set ⟨false, true⟩ oneEntryTable [99] [100]).2.num_buckets
        = oneEntryTable.num_buckets
    ∧ (ht_set ⟨false, true⟩ oneEntryTable [99] [100]).1 = 0 :=
  C5_resize_failure_nonfatal true oneEntryTable [99] [100]
    (by decide) (by decide)

/-- C6: for the command line `SET greeting hello world`, the interpreter
replies `OK` and stores under the key `greeting` the value `hello world` —
the remainder of the trimmed line after the command token, the following
whitespace run, the key token, and the following whitespace run — and not
merely the third whitespace-delimited token, which is just `hello`. -/
theorem C6_set_value_extraction :
    ∀ ht, WF ht →
      (process_command ht (bytes "SET greeting hello world")).1 = bytes "OK"
      ∧ ht_get (process_command ht (bytes "SET greeting hello world")).2
          (bytes "greeting") = some (bytes "hello world")
      ∧ setValueStart (trim_whitespace (bytes "SET greeting hello world"))
          = bytes "hello world"
      ∧ (parse_command
          (trim_whitespace (bytes "SET greeting hello world"))).getD 2 []
          = bytes "hello" := by
  intro ht hwf
  have hred : process_command ht (bytes "SET greeting hello world")
      = if (ht_set allocAll ht (bytes "greeting")
            (bytes "hello world")).1 = 0
        then (bytes "OK",
          (ht_set allocAll ht (bytes "greeting") (bytes "hello world")).2)
        else (bytes "ERROR: Failed to set value",
          (ht_set allocAll ht (bytes "greeting") (bytes "hello world")).2) :=
    rfl
  have hcode : (ht_set allocAll ht (bytes "greeting")
      (bytes "hello world")).1 = 0 :=
    ht_set_code_zero (by decide) (by decide)
  rw [hred, if_pos hcode]
  exact ⟨rfl, ht_set_get_same hwf (by decide) (by decide), by decide,
    by decide⟩

theorem C6_set_value_extraction_witness :
    (process_command (ht_create 64) (bytes "SET greeting hello world")).1
        = bytes "OK"
    ∧ ht_get (process_command (ht_create 64)
        (bytes "SET greeting hello world")).2 (bytes "greeting")
        = some (bytes "hello world")
    ∧ setValueStart (trim_whitespace (bytes "SET greeting hello world"))
        = bytes "hello world"
    ∧ (parse_command
        (trim_whitespace (bytes "SET greeting hello world"))).getD 2 []
        = bytes "hello" :=
  C6_set_value_extraction (ht_create 64) (by decide)

/-- C7 counterexample: for the sequence set `a`, delete `a`, set `a` on a
fresh store, the number of distinct keys successfully set is 1 and the
number of successful deletes is 1, so the claimed formula yields 0, yet
stats reports one live entry. -/
theorem C7_counterexample :
    (setKeysSucceeded (ht_create INITIAL_BUCKETS) c7ops).dedup.length = 1
    ∧ delsSucceeded (ht_create INITIAL_BUCKETS) c7ops = 1
    ∧ (ht_stats (runOps c7ops)).1 = 1
    ∧ (ht_stats (runOps c7ops)).1
        ≠ (setKeysSucceeded (ht_create INITIAL_BUCKETS) c7ops).dedup.length
          - delsSucceeded (ht_create INITIAL_BUCKETS) c7ops := by
  decide

/-- C7 (amended): stats reports `(num_entries, memory_used)`, and
`num_entries` is the exact number of live entries after any operation
sequence; it is the running net of inserting sets and successful deletes:
a set of an already-present key never changes it, a successful set of an
absent key increments it by one, a successful delete decrements it by one,
and a failed delete changes nothing. -/
theorem C7_net_live_count :
    (∀ ht, ht_stats ht = (ht.num_entries, ht.memory_used))
    ∧ (∀ ops, (runOps ops).num_entries = (runOps ops).buckets.flatten.length)
    ∧ (∀ a ht k v, Inv ht → (ht_get ht k).isSome →
        (ht_set a ht k v).2.num_entries = ht.num_entries)
    ∧ (∀ ht k v, Inv ht → k.length ≤ MAX_KEY_SIZE →
        v.length ≤ MAX_VALUE_SIZE → ht_get ht k = none →
        (ht_set allocAll ht k v).2.num_entries = ht.num_entries + 1)
    ∧ (∀ ht k, WF ht → CountOK ht → (ht_delete ht k).1 = 0 →
        (ht_delete ht k).2.num_entries + 1 = ht.num_entries)
    ∧ (∀ ht k, (ht_delete ht k).1 = -1 → (ht_delete ht k).2 = ht) :=
  ⟨fun _ => rfl,
   fun ops => (runOps_all ops).2.1,
   fun a _ _ v hInv hsome => ht_set_num_entries_present hInv hsome a v,
   fun _ _ _ hInv hk hv hnone => ht_set_num_entries_absent hInv hk hv hnone,
   fun _ _ hwf hc h => ht_delete_code_zero_num_entries hwf hc h,
   fun _ _ h => ht_delete_code_neg h⟩

theorem C7_net_live_count_witness :
    (ht_set allocAll oneEntryTable [97] [99]).2.num_entries
        = oneEntryTable.num_entries
    ∧ (ht_set allocAll (ht_create 64) [97] [98]).2.num_entries
        = (ht_create 64).num_entries + 1
    ∧ (ht_delete oneEntryTable [97]).2.num_entries + 1
        = oneEntryTable.num_entries
    ∧ (ht_delete (ht_create 64) [97]).2 = ht_create 64 :=
  ⟨C7_net_live_count.2.2.1 allocAll oneEntryTable [97] [99]
     (by decide) (by decide),
   C7_net_live_count.2.2.2.1 (ht_create 64) [97] [98]
     (by decide) (by decide) (by decide) (by decide),
   C7_net_live_count.2.2.2.2.1 oneEntryTable [97] (by decide) (by decide)
     (by decide),
   C7_net_live_count.2.2.2.2.2 (ht_create 64) [97] (by decide)⟩

/-- C8: create establishes, and set, delete and resize each preserve, the
structural invariant — in particular that no two entries anywhere in the
table have the same key; resize additionally moves the existing entries as
a permutation, duplicating none. -/
theorem C8_no_duplicate_keys :
    (∀ n, Inv (ht_create n))
    ∧ (∀ ops, Inv (runOps ops))
    ∧ (∀ a ht k v, Inv ht → Inv (ht_set a ht k v).2)
    ∧ (∀ ht k, Inv ht → Inv (ht_delete ht k).2)
    ∧ (∀ ht, Inv ht → Inv (ht_resize ht)
        ∧ (ht_resize ht).buckets.flatten.Perm ht.buckets.flatten) :=
  ⟨ht_create_Inv,
   fun ops => (runOps_all ops).1,
   fun a _ k v hInv => ht_set_Inv hInv a k v,
   fun _ k hInv => ht_delete_Inv hInv k,
   fun _ hInv => ⟨resize_Inv hInv, resize_flatten_perm hInv.1⟩⟩

theorem C8_no_duplicate_keys_witness :
    Inv (ht_set allocAll oneEntryTable [97] [99]).2
    ∧ Inv (ht_delete oneEntryTable [97]).2 :=
  ⟨C8_no_duplicate_keys.2.2.1 allocAll oneEntryTable [97] [99] (by decide),
   C8_no_duplicate_keys.2.2.2.1 oneEntryTable [97] (by decide)⟩

/-- C9: the server's store starts with 64 buckets, and after any sequence
of set and delete operations (with any allocation outcomes) the bucket
count is 64 times a power of two — a power of two at least 64. -/
theorem C9_buckets_power_of_two :
    (ht_create INITIAL_BUCKETS).num_buckets = 64
    ∧ ∀ ops, ∃ m : Nat, (runOps ops).num_buckets = 64 * 2 ^ m := by
  refine ⟨by decide, fun ops => ?_⟩
  obtain ⟨m, hm⟩ := runOpsFrom_num_buckets ops (ht_create INITIAL_BUCKETS)
  refine ⟨m, ?_⟩
  rw [show runOps ops = runOpsFrom (ht_create INITIAL_BUCKETS) ops from rfl,
    hm, show (ht_create INITIAL_BUCKETS).num_buckets = 64 from by decide]

/-- C10: a GET on a key whose stored value is the four bytes `NULL`
replies with exactly the bytes `NULL` — byte-for-byte the same reply a GET
on an absent key produces — so the textual protocol cannot distinguish
the two. -/
theorem C10_null_value_indistinguishable :
    ∀ ht k, k ≠ [] → (∀ b ∈ k, isspaceByte b = false) →
      (ht_get ht k = some (bytes "NULL") →
        (process_command ht (bytes "GET " ++ k)).1 = bytes "NULL")
      ∧ (ht_get ht k = none →
        (process_command ht (bytes "GET " ++ k)).1 = bytes "NULL") := by
  intro ht k hne hws
  constructor <;> intro hv <;> rw [process_command_GET hne hws, hv] <;> rfl

theorem C10_null_value_indistinguishable_witness :
    ht_get nullValueTable [97] = some (bytes "NULL")
    ∧ (process_command nullValueTable (bytes "GET " ++ [97])).1 = bytes "NULL"
    ∧ ht_get (ht_create 64) [97] = none
    ∧ (process_command (ht_create 64) (bytes "GET " ++ [97])).1
        = bytes "NULL" :=
  ⟨by decide,
   (C10_null_value_indistinguishable nullValueTable [97] (by decide)
     (by decide)).1 (by decide),
   by decide,
   (C10_null_value_indistinguishable (ht_create 64) [97] (by decide)
     (by decide)).2 (by decide)⟩

end MiniRedis
